import Mathlib

/-!
# Verification of the Canny edge detector (`canny_edge_detector.py`)

This file is a shallow embedding, over the rationals, of the six-stage Canny
pipeline of the repository, together with theorems settling the specification
claims about it.

Modelling conventions:

* A 2-D numpy array of shape `(m+1) × (n+1)` is a function
  `Fin (m+1) → Fin (n+1) → ℚ`.  Floating-point arithmetic is modelled by exact
  rational arithmetic.  The transcendental functions that the source calls
  (`np.exp`, `np.pi`, `np.sqrt`, `np.arctan2`) are not rational-valued, so they
  are passed to the embedded stages as explicit oracle parameters; every
  structural statement proved below holds for every choice of oracle, hence in
  particular for the real functions.
* A float division whose divisor is `0` produces `inf`/`nan` in numpy (it is
  not an exception).  The non-finite garbage that then floods the array is
  modelled by the failure value `CannyFailure.nanPoisoned`: a stage whose
  normalising maximum is `0` returns that failure instead of an array.
* Exceptions actually raised by Python (`IndexError` from an out-of-range
  numpy index, `ZeroDivisionError` from a Python scalar division by zero,
  `ValueError` from `np.zeros` with a negative dimension) are modelled by the
  corresponding `CannyFailure` constructors.
* The failure constructors `degenerateInputError` and `invalidArgument` exist
  only so that the error-handling sentences of the specification can be
  stated; no code path of the source produces them, because the source defines
  no such errors.
-/

set_option autoImplicit false

namespace CannyModel

open scoped BigOperators

/-- Failure modes of the embedded pipeline.  The first five model behaviours
the Python source actually has; the last two are the failures the
specification describes and are produced by no code path. -/
inductive CannyFailure : Type
  | nanPoisoned : CannyFailure
  | indexError : CannyFailure
  | zeroDivisionError : CannyFailure
  | valueError : CannyFailure
  | fuelExhausted : CannyFailure
  | degenerateInputError : CannyFailure
  | invalidArgument : CannyFailure
  deriving DecidableEq, Repr

/-- Failure propagation between pipeline stages: a raised Python exception or
a NaN-poisoned array aborts the remaining stages. -/
def bindE {α β : Type} (r : Except CannyFailure α) (f : α → Except CannyFailure β) :
    Except CannyFailure β :=
  match r with
  | .error e => .error e
  | .ok a => f a

theorem bindE_ok {α β : Type} (a : α) (f : α → Except CannyFailure β) :
    bindE (.ok a) f = f a := rfl

theorem bindE_error {α β : Type} (e : CannyFailure) (f : α → Except CannyFailure β) :
    bindE (.error e) f = .error e := rfl

theorem bindE_assoc {α β γ : Type} (r : Except CannyFailure α)
    (f : α → Except CannyFailure β) (g : β → Except CannyFailure γ) :
    bindE (bindE r f) g = bindE r fun a => bindE (f a) g := by
  cases r <;> rfl

/-- A 2-D array of rationals with `m+1` rows and `n+1` columns (numpy arrays
in the pipeline always have at least one row and one column). -/
abbrev Img (m n : ℕ) : Type := Fin (m + 1) → Fin (n + 1) → ℚ

/-- A pixel coordinate of an `(m+1) × (n+1)` array. -/
abbrev Cell (m n : ℕ) : Type := Fin (m + 1) × Fin (n + 1)

/-- Row-major list of all coordinates of an `(m+1) × (n+1)` array. -/
def cellsList (m n : ℕ) : List (Cell m n) :=
  (List.finRange (m + 1)).flatMap fun i => (List.finRange (n + 1)).map fun j => (i, j)

theorem mem_cellsList {m n : ℕ} (c : Cell m n) : c ∈ cellsList m n := by
  rcases c with ⟨i, j⟩
  unfold cellsList
  refine List.mem_flatMap.2 ⟨i, List.mem_finRange i, ?_⟩
  exact List.mem_map.2 ⟨j, List.mem_finRange j, rfl⟩

/-- Maximum of a list of rationals, folded from an initial value
(`numpy.max` over a non-empty array). -/
def foldMax (init : ℚ) (l : List ℚ) : ℚ :=
  l.foldl max init

theorem init_le_foldMax (init : ℚ) (l : List ℚ) : init ≤ foldMax init l := by
  induction l generalizing init with
  | nil => exact le_refl _
  | cons x xs ih => exact le_trans (le_max_left init x) (ih (max init x))

theorem mem_le_foldMax (init : ℚ) {l : List ℚ} {x : ℚ} (hx : x ∈ l) :
    x ≤ foldMax init l := by
  induction l generalizing init with
  | nil => cases hx
  | cons y ys ih =>
    rcases List.mem_cons.1 hx with h | h
    · subst h
      exact le_trans (le_max_right init x) (init_le_foldMax _ ys)
    · exact ih (max init y) h

theorem foldMax_eq_init_or_mem (init : ℚ) (l : List ℚ) :
    foldMax init l = init ∨ foldMax init l ∈ l := by
  induction l generalizing init with
  | nil => exact Or.inl rfl
  | cons x xs ih =>
    rcases ih (max init x) with h | h
    · rcases max_cases init x with ⟨he, _⟩ | ⟨he, _⟩
      · rw [foldMax, List.foldl_cons] at *
        rw [show List.foldl max (max init x) xs = foldMax (max init x) xs from rfl] at *
        rw [h, he]
        exact Or.inl rfl
      · refine Or.inr (List.mem_cons.2 (Or.inl ?_))
        rw [foldMax, List.foldl_cons,
          show List.foldl max (max init x) xs = foldMax (max init x) xs from rfl, h, he]
    · exact Or.inr (List.mem_cons.2 (Or.inr h))

/-- Maximum entry of a (non-empty) array, `image.max()` of the source. -/
def imageMax {m n : ℕ} (a : Img m n) : ℚ :=
  foldMax (a 0 0) ((cellsList m n).map fun c => a c.1 c.2)

theorem le_imageMax {m n : ℕ} (a : Img m n) (i : Fin (m + 1)) (j : Fin (n + 1)) :
    a i j ≤ imageMax a :=
  mem_le_foldMax _ (List.mem_map.2 ⟨(i, j), mem_cellsList _, rfl⟩)

theorem imageMax_attained {m n : ℕ} (a : Img m n) :
    ∃ i j, a i j = imageMax a := by
  rcases foldMax_eq_init_or_mem (a 0 0) ((cellsList m n).map fun c => a c.1 c.2) with h | h
  · exact ⟨0, 0, h.symm⟩
  · rcases List.mem_map.1 h with ⟨c, _, hc⟩
    exact ⟨c.1, c.2, hc⟩

/-- If `B` bounds every entry and is attained, it is the maximum. -/
theorem imageMax_eq_of {m n : ℕ} (a : Img m n) (B : ℚ)
    (hub : ∀ i j, a i j ≤ B) (hat : ∃ i j, a i j = B) : imageMax a = B := by
  rcases hat with ⟨i, j, hij⟩
  rcases imageMax_attained a with ⟨i', j', h'⟩
  exact le_antisymm (h' ▸ hub i' j') (hij ▸ le_imageMax a i j)

theorem imageMax_smul {m n : ℕ} (a : Img m n) (k : ℚ) (hk : 0 < k) :
    imageMax (fun i j => k * a i j) = k * imageMax a := by
  refine imageMax_eq_of _ _ (fun i j => ?_) ?_
  · exact mul_le_mul_of_nonneg_left (le_imageMax a i j) (le_of_lt hk)
  · rcases imageMax_attained a with ⟨i, j, h⟩
    exact ⟨i, j, by rw [h]⟩

theorem imageMax_zero {m n : ℕ} : imageMax (fun (_ : Fin (m+1)) (_ : Fin (n+1)) => (0 : ℚ)) = 0 :=
  imageMax_eq_of _ 0 (fun _ _ => le_refl 0) ⟨0, 0, rfl⟩

/-- Numpy index semantics for a single axis of length `N`: an index in
`[0, N)` denotes itself, an index in `[-N, 0)` wraps around to `i + N`, and
anything else raises `IndexError` (modelled by `none`). -/
def normIdx (N : ℕ) (i : ℤ) : Option (Fin N) :=
  if h : 0 ≤ i ∧ i < N then
    some ⟨i.toNat, by omega⟩
  else if h' : -(N : ℤ) ≤ i ∧ i < 0 then
    some ⟨(i + N).toNat, by omega⟩
  else
    none

theorem normIdx_of_inbounds (N : ℕ) (i : ℤ) (h0 : 0 ≤ i) (hN : i < N) :
    normIdx N i = some ⟨i.toNat, by omega⟩ := by
  unfold normIdx
  rw [dif_pos ⟨h0, hN⟩]

/-- Numpy index semantics for a pair index `edges[(i, j)]`. -/
def normCell (m n : ℕ) (p : ℤ × ℤ) : Option (Cell m n) :=
  match normIdx (m + 1) p.1, normIdx (n + 1) p.2 with
  | some i, some j => some (i, j)
  | _, _ => none

/-- The integer coordinates of a pixel. -/
def rawOf {m n : ℕ} (c : Cell m n) : ℤ × ℤ :=
  ((c.1 : ℤ), (c.2 : ℤ))

theorem normCell_rawOf_add {m n : ℕ} (c : Cell m n) (o : ℤ × ℤ)
    (h1 : 0 ≤ (c.1 : ℤ) + o.1) (h2 : (c.1 : ℤ) + o.1 < m + 1)
    (h3 : 0 ≤ (c.2 : ℤ) + o.2) (h4 : (c.2 : ℤ) + o.2 < n + 1) :
    ∃ c' : Cell m n, normCell m n ((rawOf c).1 + o.1, (rawOf c).2 + o.2) = some c' ∧
      rawOf c' = ((c.1 : ℤ) + o.1, (c.2 : ℤ) + o.2) := by
  refine ⟨(⟨((c.1 : ℤ) + o.1).toNat, by omega⟩, ⟨((c.2 : ℤ) + o.2).toNat, by omega⟩), ?_, ?_⟩
  · unfold normCell rawOf
    rw [normIdx_of_inbounds _ _ h1 (by exact_mod_cast h2),
      normIdx_of_inbounds _ _ h3 (by exact_mod_cast h4)]
  · unfold rawOf
    simp only [Prod.mk.injEq]
    constructor <;> [skip; skip] <;> simp [Int.toNat_of_nonneg, h1, h3]

/-- Functional update of one pixel of an array (a numpy element assignment). -/
def setCell {m n : ℕ} (a : Img m n) (c : Cell m n) (v : ℚ) : Img m n :=
  fun i j => if i = c.1 ∧ j = c.2 then v else a i j

theorem setCell_same {m n : ℕ} (a : Img m n) (c : Cell m n) (v : ℚ) :
    setCell a c v c.1 c.2 = v := by
  simp [setCell]

theorem setCell_other {m n : ℕ} (a : Img m n) (c : Cell m n) (v : ℚ)
    {i : Fin (m + 1)} {j : Fin (n + 1)} (h : ¬(i = c.1 ∧ j = c.2)) :
    setCell a c v i j = a i j := by
  simp [setCell, h]

/-- Array read through numpy single-element index semantics; the `0` default
is never reached by the pipeline (all such reads are in bounds). -/
def getI {m n : ℕ} (a : Img m n) (i j : ℤ) : ℚ :=
  match normIdx (m + 1) i, normIdx (n + 1) j with
  | some i', some j' => a i' j'
  | _, _ => 0

/-- The `reflect` boundary extension used by `scipy.ndimage.convolve`
(mode `reflect`, the default): `(d c b a | a b c d | d c b a)`. -/
def reflectIdx (m : ℕ) (i : ℤ) : Fin (m + 1) :=
  let p := i.emod (2 * (m + 1))
  if h : p < m + 1 then
    ⟨p.toNat, by
      have h0 : 0 ≤ p := Int.emod_nonneg i (by positivity)
      omega⟩
  else
    ⟨(2 * (m + 1) - 1 - p).toNat, by
      have h1 : p < 2 * (m + 1) := Int.emod_lt_of_pos i (by positivity)
      omega⟩

theorem reflectIdx_of_inbounds (m : ℕ) (i : ℤ) (h0 : 0 ≤ i) (hm : i < m + 1) :
    reflectIdx m i = ⟨i.toNat, by omega⟩ := by
  unfold reflectIdx
  have he : i.emod (2 * (m + 1)) = i := Int.emod_eq_of_lt h0 (by omega)
  simp only [he]
  rw [dif_pos hm]

/-- Convolution `scipy.ndimage.convolve(a, k)` with the default `reflect` boundary mode:
true convolution, `out[i,j] = Σ k[u,v] · a[reflect(i-(u-c)), reflect(j-(v-c))]`
where `c = s // 2` is the kernel centre. -/
def convolve {m n s : ℕ} (a : Img m n) (k : Fin s → Fin s → ℚ) : Img m n :=
  fun i j =>
    ∑ u : Fin s, ∑ v : Fin s,
      k u v *
        a (reflectIdx m ((i : ℤ) - ((u : ℤ) - (s / 2 : ℕ))))
          (reflectIdx n ((j : ℤ) - ((v : ℤ) - (s / 2 : ℕ))))

theorem convolve_zero {m n s : ℕ} (k : Fin s → Fin s → ℚ) :
    convolve (fun (_ : Fin (m+1)) (_ : Fin (n+1)) => (0 : ℚ)) k =
      fun _ _ => (0 : ℚ) := by
  funext i j
  simp [convolve]

/-- Convolution with a one-pixel kernel is pointwise scaling. -/
theorem convolve_singleton {m n : ℕ} (a : Img m n) (k : Fin 1 → Fin 1 → ℚ) :
    convolve a k = fun i j => k 0 0 * a i j := by
  funext i j
  have hi : reflectIdx m ((i : ℤ) - (((0 : Fin 1) : ℤ) - ((1 / 2 : ℕ) : ℤ))) = i := by
    have : ((i : ℤ) - (((0 : Fin 1) : ℤ) - ((1 / 2 : ℕ) : ℤ))) = (i : ℤ) := by
      simp
    rw [this, reflectIdx_of_inbounds m i (by positivity) (by exact_mod_cast i.isLt)]
    ext
    simp
  have hj : reflectIdx n ((j : ℤ) - (((0 : Fin 1) : ℤ) - ((1 / 2 : ℕ) : ℤ))) = j := by
    have : ((j : ℤ) - (((0 : Fin 1) : ℤ) - ((1 / 2 : ℕ) : ℤ))) = (j : ℤ) := by
      simp
    rw [this, reflectIdx_of_inbounds n j (by positivity) (by exact_mod_cast j.isLt)]
    ext
    simp
  rw [convolve]
  rw [Finset.sum_eq_single (0 : Fin 1) (by intro b _ hb; exact absurd (Subsingleton.elim b 0) hb)
    (by intro h; exact absurd (Finset.mem_univ _) h)]
  rw [Finset.sum_eq_single (0 : Fin 1) (by intro b _ hb; exact absurd (Subsingleton.elim b 0) hb)
    (by intro h; exact absurd (Finset.mem_univ _) h)]
  rw [hi, hj]

/-! ## Stage 1: Gaussian smoothing (`gaussian_smoothing`, source lines 10-24) -/

/-- Side length of the Gaussian kernel, source lines 13-14:
`ceil_sigma = int(ceil(2.54 * sigma))`, made odd by adding one when even.
Python's `%` on negative numbers agrees with `Int.emod`. -/
def kernelShape (σ : ℚ) : ℤ :=
  let c := ⌈(254 / 100 : ℚ) * σ⌉
  if c % 2 = 1 then c else c + 1

/-- The Gaussian kernel of source lines 16-21, with `np.exp` and `np.pi`
passed as oracles: entry `(i, j)` is
`exp(-(i_k² + j_k²)/(2σ²)) / (2 π σ²)` where `i_k = i - s//2`. -/
def gaussKernel (expF : ℚ → ℚ) (piF : ℚ) (σ : ℚ) (s : ℕ) : Fin s → Fin s → ℚ :=
  fun i j =>
    let g : ℤ := (s / 2 : ℕ)
    let ik : ℤ := (i : ℤ) - g
    let jk : ℤ := (j : ℤ) - g
    expF (-((ik * ik + jk * jk : ℤ) : ℚ) / (2 * σ * σ)) / (2 * piF * σ * σ)

/-- Source lines 10-24.  `np.zeros` with a negative dimension raises
`ValueError`; the Python scalar division `-(i_k²+j_k²) / (2σ²)` raises
`ZeroDivisionError` when `σ = 0`; `smoothed *= 1.0/smoothed.max()` floods the
array with `inf`/`nan` when the maximum is zero (`nanPoisoned`). -/
def gaussian_smoothing (expF : ℚ → ℚ) (piF : ℚ) {m n : ℕ} (image : Img m n)
    (σ : ℚ) : Except CannyFailure (Img m n) :=
  let ks := kernelShape σ
  if ks < 0 then .error .valueError
  else if σ = 0 then .error .zeroDivisionError
  else
    let sm := convolve image (gaussKernel expF piF σ ks.toNat)
    let M := imageMax sm
    if M = 0 then .error .nanPoisoned
    else .ok fun i j => sm i j * (1 / M)

/-! ## Stage 2: gradients (`calculate_gradients`, source lines 27-38) -/

/-- The matrix `kernel_horizontal` of source line 29. -/
def sobelH : Fin 3 → Fin 3 → ℚ := ![![1, 2, 1], ![0, 0, 0], ![-1, -2, -1]]

/-- The matrix `kernel_vertical = np.flip(kernel_horizontal.T, axis=0)` of source
line 30, written out: the transpose is `[[1,0,-1],[2,0,-2],[1,0,-1]]` and
reversing its rows leaves it unchanged. -/
def sobelV : Fin 3 → Fin 3 → ℚ := ![![1, 0, -1], ![2, 0, -2], ![1, 0, -1]]

/-- Source lines 27-38, with `np.sqrt` and `np.arctan2` as oracles.
`rad2deg x = x * 180/π`.  Exact zeroes of the vertical response are replaced
by `0.000001` before `arctan2`, as on source line 35. -/
def calculate_gradients (sqrtF : ℚ → ℚ) (atan2F : ℚ → ℚ → ℚ) (piF : ℚ)
    {m n : ℕ} (image : Img m n) : Except CannyFailure (Img m n × Img m n) :=
  let gh := convolve image sobelH
  let gv := convolve image sobelV
  let magRaw : Img m n := fun i j => sqrtF (gh i j ^ 2 + gv i j ^ 2)
  let M := imageMax magRaw
  if M = 0 then .error .nanPoisoned
  else
    let mag : Img m n := fun i j => magRaw i j / M
    let gvE : Img m n := fun i j => if gv i j = 0 then 1 / 1000000 else gv i j
    let angle : Img m n := fun i j => atan2F (gh i j) (gvE i j) * (180 / piF)
    .ok (mag, angle)

/-! ## Stage 3: non-maximum suppression (source lines 41-69) -/

/-- Source line 46: `gradient_angle[gradient_angle < 0] += 180`.  This is an
in-place mutation of the caller's direction array; the function below is both
the final state of that argument and the array the suppression loop reads. -/
def foldAngles {m n : ℕ} (angle : Img m n) : Img m n :=
  fun i j => if angle i j < 0 then angle i j + 180 else angle i j

/-- The suppression loop of source lines 45-67 (the `potential_edges` array
just before the final rescale of line 68): border pixels keep the initial
value `0`; an interior pixel keeps its magnitude exactly when the magnitude
is `≥` both neighbours selected by the angular bucket of the folded angle. -/
def nmsRaw {m n : ℕ} (mag angle : Img m n) : Img m n :=
  fun i j =>
    if 1 ≤ (i : ℕ) ∧ (i : ℕ) < m ∧ 1 ≤ (j : ℕ) ∧ (j : ℕ) < n then
      let θ := foldAngles angle i j
      let ab :=
        if (0 ≤ θ ∧ θ < 45 / 2) ∨ (315 / 2 ≤ θ ∧ θ ≤ 180) then
          (getI mag (i : ℤ) ((j : ℤ) - 1), getI mag (i : ℤ) ((j : ℤ) + 1))
        else if 45 / 2 ≤ θ ∧ θ < 135 / 2 then
          (getI mag ((i : ℤ) + 1) ((j : ℤ) + 1), getI mag ((i : ℤ) - 1) ((j : ℤ) - 1))
        else if 135 / 2 ≤ θ ∧ θ < 225 / 2 then
          (getI mag ((i : ℤ) - 1) (j : ℤ), getI mag ((i : ℤ) + 1) (j : ℤ))
        else if 225 / 2 ≤ θ ∧ θ < 315 / 2 then
          (getI mag ((i : ℤ) + 1) ((j : ℤ) - 1), getI mag ((i : ℤ) - 1) ((j : ℤ) + 1))
        else (1, 1)
      if ab.1 ≤ mag i j ∧ ab.2 ≤ mag i j then mag i j else 0
    else 0

/-- Source lines 41-69: suppression loop followed by the rescale
`potential_edges / potential_edges.max() * 1.0` of line 68 (`nanPoisoned`
when everything was suppressed). -/
def non_maximum_suppression {m n : ℕ} (mag angle : Img m n) :
    Except CannyFailure (Img m n) :=
  let pe := nmsRaw mag angle
  let M := imageMax pe
  if M = 0 then .error .nanPoisoned
  else .ok fun i j => pe i j / M

/-! ## Stage 4: Otsu thresholding (`otsu_threshold`, source lines 72-105) -/

/-- Truncation towards zero, the behaviour of a C float-to-integer cast. -/
def truncToInt (q : ℚ) : ℤ :=
  if 0 ≤ q then ⌊q⌋ else -⌊-q⌋

/-- Conversion `astype(np.uint8)` of a float value: truncate towards zero, then reduce
modulo `256` (the C cast the conversion performs). -/
def toUint8 (q : ℚ) : ℕ :=
  ((truncToInt q) % 256).toNat

/-- Histogram bucket `v` of the quantized image: the number of pixels whose
quantized value is `v` (source lines 77-85 count them one by one; the count
lives in a float array). -/
def otsuHist {m n : ℕ} (qm : Cell m n → ℕ) (v : ℕ) : ℚ :=
  (((cellsList m n).filter fun c => decide (qm c = v)).length : ℚ)

/-- Running state of the threshold search of source lines 90-104. -/
structure OtsuState where
  threshold : ℕ
  maxVar : ℚ
  sumB : ℚ
  q1 : ℚ
  deriving Repr, DecidableEq

/-- One iteration of the loop of source lines 90-104.  When `q1 = 0` the
iteration `continue`s, skipping the `sumB` update as the source does; a
zero `q2` is replaced by `1` before the mean `u2` is formed. -/
def otsuStep (size sum : ℚ) (hist : ℕ → ℚ) (st : OtsuState) (t : ℕ) : OtsuState :=
  let q1 := st.q1 + hist t
  if q1 = 0 then { st with q1 := q1 }
  else
    let q2 := size - q1
    let sumB := st.sumB + (t : ℚ) * hist t
    let u1 := sumB / q1
    let q2s := if q2 = 0 then 1 else q2
    let u2 := (sum - sumB) / q2s
    let s2 := q1 * q2s * (u1 - u2) ^ 2
    if st.maxVar < s2 then ⟨t, s2, sumB, q1⟩
    else { st with sumB := sumB, q1 := q1 }

/-- The weighted histogram total of source lines 87-88
(`sum += i * histogram[i]`, a left fold over `range(256)`). -/
def otsuSum (hist : ℕ → ℚ) : ℚ :=
  (List.range 256).foldl (fun (acc : ℚ) (i : ℕ) => acc + (i : ℚ) * hist i) 0

/-- The full threshold search on a quantized image (source lines 77-105). -/
def otsuCore {m n : ℕ} (qm : Cell m n → ℕ) : ℕ :=
  let size : ℚ := ((m + 1) * (n + 1) : ℕ)
  let hist := otsuHist qm
  ((List.range 256).foldl (otsuStep size (otsuSum hist) hist) ⟨0, 0, 0, 0⟩).threshold

/-- Source lines 72-105: quantize a copy of the image to `[0, 255]`
(`image_norm *= 255 / image_norm.max()` then `astype(np.uint8)`) and run
the threshold search.  A zero maximum floods the copy with `nan`
(`nanPoisoned`). -/
def otsu_threshold {m n : ℕ} (image : Img m n) : Except CannyFailure ℕ :=
  let M := imageMax image
  if M = 0 then .error .nanPoisoned
  else .ok (otsuCore fun c => toUint8 (image c.1 c.2 * (255 / M)))

/-! ## Stage 5: double thresholding (`double_threshold`, source lines 108-123) -/

/-- The final state of the caller's `potential_edges` array after the
in-place rescale `potential_edges *= 255 / potential_edges.max()` of source
line 114. -/
def doubleThresholdPeAfter {m n : ℕ} (pe : Img m n) : Img m n :=
  fun i j => pe i j * (255 / imageMax pe)

/-- The `strong_edges` map built by the loop of source lines 117-120:
`255` exactly where the rescaled `potential_edges` exceeds `upper`. -/
def strongOf {m n : ℕ} (pe : Img m n) (upper : ℕ) : Img m n :=
  fun i j => if (upper : ℚ) < doubleThresholdPeAfter pe i j then 255 else 0

/-- The `weak_edges` map built by the `elif` of source lines 121-122, with
`lower = upper // 3`: `50` exactly where the rescaled value lies in
`[lower, upper]` (and the `if` of line 119 did not fire). -/
def weakOf {m n : ℕ} (pe : Img m n) (upper : ℕ) : Img m n :=
  fun i j =>
    if (upper : ℚ) < doubleThresholdPeAfter pe i j then 0
    else if ((upper / 3 : ℕ) : ℚ) ≤ doubleThresholdPeAfter pe i j ∧
        doubleThresholdPeAfter pe i j ≤ (upper : ℚ) then 50
    else 0

/-- Source lines 108-123.  `upper` is the Otsu threshold of the (unscaled)
`potential_edges`; `lower = upper // 3` in integer division; the rescaled
array is classified per pixel by the `if`/`elif` of lines 119-122.  The
second argument is used by the source only for its shape. -/
def double_threshold {m n : ℕ} (pe _magnitude : Img m n) :
    Except CannyFailure (Img m n × Img m n) :=
  bindE (otsu_threshold pe) fun upper => .ok (strongOf pe upper, weakOf pe upper)

theorem double_threshold_of_otsu {m n : ℕ} (pe mag : Img m n) (u : ℕ)
    (h : otsu_threshold pe = Except.ok u) :
    double_threshold pe mag = Except.ok (strongOf pe u, weakOf pe u) := by
  unfold double_threshold
  rw [h, bindE_ok]

/-! ## Stage 6: hysteresis (`edge_hysteresis`, source lines 126-152) -/

/-- The eight neighbour offsets in the order generated by the nested loops of
source lines 131-136. -/
def neighbourOffsets : List (ℤ × ℤ) :=
  [(-1, -1), (-1, 0), (-1, 1), (0, -1), (0, 1), (1, -1), (1, 0), (1, 1)]

/-- Function `get_neighbours` of source lines 129-137: the raw (possibly negative or
out-of-range) integer coordinates of the eight neighbours. -/
def get_neighbours (p : ℤ × ℤ) : List (ℤ × ℤ) :=
  neighbourOffsets.map fun o => (p.1 + o.1, p.2 + o.2)

/-- The body of the queue loop for one popped pixel (source lines 145-150):
read each neighbour through numpy index semantics (recording the raw index in
an access trace), promote a `50` to `255` and append the raw coordinate to
the queue.  An unrepresentable index raises `IndexError`. -/
def processNeighbours {m n : ℕ} :
    Img m n → List (ℤ × ℤ) → List (ℤ × ℤ) → List (ℤ × ℤ) →
      Except CannyFailure (Img m n × List (ℤ × ℤ) × List (ℤ × ℤ))
  | edges, trace, queue, [] => .ok (edges, trace, queue)
  | edges, trace, queue, p :: rest =>
    match normCell m n p with
    | none => .error .indexError
    | some c =>
      if edges c.1 c.2 = 50 then
        processNeighbours (setCell edges c 255) (trace ++ [p]) (queue ++ [p]) rest
      else
        processNeighbours edges (trace ++ [p]) queue rest

/-- The `while not pixel_queue.empty()` loop of source lines 142-150, with a
fuel bound (each pixel is promoted and hence enqueued at most once, so the
fuel below is never exhausted on runs the theorems talk about). -/
def hystLoop {m n : ℕ} :
    ℕ → Img m n → List (ℤ × ℤ) → List (ℤ × ℤ) →
      Except CannyFailure (Img m n × List (ℤ × ℤ))
  | _, edges, trace, [] => .ok (edges, trace)
  | 0, _, _, _ :: _ => .error .fuelExhausted
  | fuel + 1, edges, trace, p :: queue =>
    match processNeighbours edges trace queue (get_neighbours p) with
    | .error f => .error f
    | .ok (e, t, q) => hystLoop fuel e t q

/-- Fuel bound for the queue loop. -/
def hystFuel (m n : ℕ) : ℕ :=
  2 * (m + 1) * (n + 1) + 1

/-- Source lines 126-152 instrumented with the access trace: sum the maps
(line 127), seed the FIFO queue with the coordinates of the nonzero pixels of
`strong_edges` in row-major order (lines 138-141), run the queue loop, then
set every remaining `50` to `0` (line 151). -/
def edge_hysteresisT {m n : ℕ} (strong weak : Img m n) :
    Except CannyFailure (Img m n × List (ℤ × ℤ)) :=
  let edges : Img m n := fun i j => strong i j + weak i j
  let q0 := ((cellsList m n).filter fun c => decide (strong c.1 c.2 ≠ 0)).map rawOf
  match hystLoop (hystFuel m n) edges [] q0 with
  | .error f => .error f
  | .ok (e, tr) => .ok ((fun i j => if e i j = 50 then 0 else e i j), tr)

/-- Function `edge_hysteresis` of source lines 126-152 (the returned array). -/
def edge_hysteresis {m n : ℕ} (strong weak : Img m n) :
    Except CannyFailure (Img m n) :=
  (edge_hysteresisT strong weak).map Prod.fst

/-! ## The orchestrator (`canny`, source lines 155-162) -/

/-- The transcendental functions the source calls, supplied as parameters of
the embedding. -/
structure Oracles where
  expF : ℚ → ℚ
  piF : ℚ
  sqrtF : ℚ → ℚ
  atan2F : ℚ → ℚ → ℚ

/-- Function `canny` of source lines 155-162: the six stages composed, propagating the
modelled failures. -/
def canny (O : Oracles) {m n : ℕ} (image : Img m n) (σ : ℚ) :
    Except CannyFailure (Img m n) :=
  bindE (gaussian_smoothing O.expF O.piF image σ) fun gauss =>
    bindE (calculate_gradients O.sqrtF O.atan2F O.piF gauss) fun ma =>
      bindE (non_maximum_suppression ma.1 ma.2) fun pe =>
        bindE (double_threshold pe ma.1) fun sw =>
          edge_hysteresis sw.1 sw.2

/-- The tail of the pipeline from the non-maximum-suppression output onwards
(source lines 160-161). -/
def cannyFromPotential {m n : ℕ} (pe magnitude : Img m n) :
    Except CannyFailure (Img m n) :=
  bindE (double_threshold pe magnitude) fun sw => edge_hysteresis sw.1 sw.2

theorem cannyFromPotential_of_dt {m n : ℕ} (pe mag s w : Img m n)
    (h : double_threshold pe mag = Except.ok (s, w)) :
    cannyFromPotential pe mag = edge_hysteresis s w := by
  unfold cannyFromPotential
  rw [h, bindE_ok]

/-- Row-major serialization of an array, used to state concrete runs. -/
def imgToList {m n : ℕ} (a : Img m n) : List (List ℚ) :=
  (List.finRange (m + 1)).map fun i => (List.finRange (n + 1)).map fun j => a i j

/-- Truth of a predicate on the success value of a fallible result (trivially
true on failures). -/
def okP {α : Type} (r : Except CannyFailure α) (P : α → Prop) : Prop :=
  match r with
  | .error _ => True
  | .ok a => P a

theorem okP_bindE {α β : Type} {r : Except CannyFailure α}
    {f : α → Except CannyFailure β} {P : β → Prop}
    (h : ∀ a, okP (f a) P) : okP (bindE r f) P := by
  cases r with
  | error e => exact trivial
  | ok a => exact h a

theorem okP_ok {α : Type} {a : α} {P : α → Prop} (h : okP (Except.ok a) P) : P a := h

theorem okP_mono {α : Type} {r : Except CannyFailure α} {P Q : α → Prop}
    (h : okP r P) (hpq : ∀ a, P a → Q a) : okP r Q := by
  cases r with
  | error e => exact trivial
  | ok a => exact hpq a h

theorem okP_of_all {α : Type} {r : Except CannyFailure α} {Q : α → Prop}
    (h : ∀ a, Q a) : okP r Q := by
  cases r with
  | error e => exact trivial
  | ok a => exact h a

theorem okP_pi {α ι κ : Type} {r : Except CannyFailure α} {Q : α → ι → κ → Prop}
    (h : ∀ i j, okP r fun a => Q a i j) : okP r fun a => ∀ i j, Q a i j := by
  cases r with
  | error e => exact trivial
  | ok a => exact fun i j => h i j

/-! ## Evaluation helpers

The 256-iteration threshold search is evaluated on concrete images in four
chunks of 64 iterations, to keep definitional-reduction depth bounded. -/

/-- The `k`-th quarter of `range(256)`. -/
def chunkRange (k : ℕ) : List ℕ :=
  (List.range 64).map fun i => 64 * k + i

set_option maxRecDepth 10000 in
theorem foldl_chunks4 {α : Type} (f : α → ℕ → α) (s0 s1 s2 s3 s4 : α)
    (h1 : (chunkRange 0).foldl f s0 = s1)
    (h2 : (chunkRange 1).foldl f s1 = s2)
    (h3 : (chunkRange 2).foldl f s2 = s3)
    (h4 : (chunkRange 3).foldl f s3 = s4) :
    (List.range 256).foldl f s0 = s4 := by
  have e : List.range 256 = ((chunkRange 0 ++ chunkRange 1) ++ chunkRange 2) ++ chunkRange 3 := by
    decide
  rw [e, List.foldl_append, List.foldl_append, List.foldl_append, h1, h2, h3, h4]

theorem otsuSum_eval (hist : ℕ → ℚ) (v1 v2 v3 v4 : ℚ)
    (h1 : (chunkRange 0).foldl (fun (acc : ℚ) (i : ℕ) => acc + (i : ℚ) * hist i) 0 = v1)
    (h2 : (chunkRange 1).foldl (fun (acc : ℚ) (i : ℕ) => acc + (i : ℚ) * hist i) v1 = v2)
    (h3 : (chunkRange 2).foldl (fun (acc : ℚ) (i : ℕ) => acc + (i : ℚ) * hist i) v2 = v3)
    (h4 : (chunkRange 3).foldl (fun (acc : ℚ) (i : ℕ) => acc + (i : ℚ) * hist i) v3 = v4) :
    otsuSum hist = v4 :=
  foldl_chunks4 _ _ _ _ _ _ h1 h2 h3 h4

theorem otsuCore_eval {m n : ℕ} (qm : Cell m n → ℕ) (SUM : ℚ) (S1 S2 S3 S4 : OtsuState)
    (hs : otsuSum (otsuHist qm) = SUM)
    (h1 : (chunkRange 0).foldl
      (otsuStep (((m + 1) * (n + 1) : ℕ) : ℚ) SUM (otsuHist qm)) ⟨0, 0, 0, 0⟩ = S1)
    (h2 : (chunkRange 1).foldl
      (otsuStep (((m + 1) * (n + 1) : ℕ) : ℚ) SUM (otsuHist qm)) S1 = S2)
    (h3 : (chunkRange 2).foldl
      (otsuStep (((m + 1) * (n + 1) : ℕ) : ℚ) SUM (otsuHist qm)) S2 = S3)
    (h4 : (chunkRange 3).foldl
      (otsuStep (((m + 1) * (n + 1) : ℕ) : ℚ) SUM (otsuHist qm)) S3 = S4) :
    otsuCore qm = S4.threshold := by
  have e : otsuCore qm = ((List.range 256).foldl
      (otsuStep (((m + 1) * (n + 1) : ℕ) : ℚ) (otsuSum (otsuHist qm)) (otsuHist qm))
      ⟨0, 0, 0, 0⟩).threshold := rfl
  rw [e, hs, foldl_chunks4 _ _ _ _ _ _ h1 h2 h3 h4]

theorem otsu_threshold_eval {m n : ℕ} (image : Img m n) (v : ℕ)
    (hM : ¬ imageMax image = 0)
    (hcore : otsuCore (fun c => toUint8 (image c.1 c.2 * (255 / imageMax image))) = v) :
    otsu_threshold image = Except.ok v := by
  unfold otsu_threshold
  rw [if_neg hM, hcore]

/-! ## Properties of the hysteresis queue loop

The loop only ever changes a pixel from `50` to `255`; `Evol` captures this
per-pixel evolution between two snapshots of the working array. -/

/-- Between two snapshots of the hysteresis working array, every pixel is
either unchanged or was a `50` promoted to `255`. -/
def Evol {m n : ℕ} (e e' : Img m n) : Prop :=
  ∀ i j, e' i j = e i j ∨ (e i j = 50 ∧ e' i j = 255)

theorem evol_refl {m n : ℕ} (e : Img m n) : Evol e e :=
  fun _ _ => Or.inl rfl

theorem evol_trans {m n : ℕ} {e1 e2 e3 : Img m n}
    (h12 : Evol e1 e2) (h23 : Evol e2 e3) : Evol e1 e3 := by
  intro i j
  rcases h12 i j with h | ⟨h50, h255⟩
  · rcases h23 i j with h' | ⟨h50', h255'⟩
    · exact Or.inl (h'.trans h)
    · exact Or.inr ⟨h ▸ h50', h255'⟩
  · rcases h23 i j with h' | ⟨h50', h255'⟩
    · exact Or.inr ⟨h50, h'.trans h255⟩
    · rw [h255] at h50'
      exact absurd h50' (by norm_num)

theorem evol_setCell {m n : ℕ} (e : Img m n) (c : Cell m n)
    (h : e c.1 c.2 = 50) : Evol e (setCell e c 255) := by
  intro i j
  by_cases hc : i = c.1 ∧ j = c.2
  · rcases hc with ⟨h1, h2⟩
    refine Or.inr ⟨?_, ?_⟩
    · rw [h1, h2]; exact h
    · rw [h1, h2, setCell_same]
  · exact Or.inl (setCell_other e c 255 hc)

theorem processNeighbours_evol {m n : ℕ} {e e' : Img m n}
    {tr q tr' q' : List (ℤ × ℤ)} {l : List (ℤ × ℤ)}
    (hrun : processNeighbours e tr q l = Except.ok (e', tr', q')) :
    Evol e e' := by
  induction l generalizing e tr q with
  | nil =>
    simp only [processNeighbours, Except.ok.injEq, Prod.mk.injEq] at hrun
    exact hrun.1 ▸ evol_refl e
  | cons p rest ih =>
    simp only [processNeighbours] at hrun
    split at hrun
    · cases hrun
    · split at hrun
      · exact evol_trans (evol_setCell e _ (by assumption)) (ih hrun)
      · exact ih hrun

theorem hystLoop_evol {m n : ℕ} {fuel : ℕ} {e e' : Img m n}
    {tr q tr' : List (ℤ × ℤ)}
    (hrun : hystLoop fuel e tr q = Except.ok (e', tr')) :
    Evol e e' := by
  induction fuel generalizing e tr q with
  | zero =>
    cases q with
    | nil =>
      simp only [hystLoop, Except.ok.injEq, Prod.mk.injEq] at hrun
      exact hrun.1 ▸ evol_refl e
    | cons p rest => simp only [hystLoop] at hrun; cases hrun
  | succ fuel ih =>
    cases q with
    | nil =>
      simp only [hystLoop, Except.ok.injEq, Prod.mk.injEq] at hrun
      exact hrun.1 ▸ evol_refl e
    | cons p rest =>
      simp only [hystLoop] at hrun
      split at hrun
      · cases hrun
      · rename_i e1 t1 q1 hp
        exact evol_trans (processNeighbours_evol hp) (ih hrun)

/-- Unfolding of a successful `edge_hysteresisT` run: a successful queue loop
followed by the final sweep of the remaining `50`s. -/
theorem edge_hysteresisT_ok {m n : ℕ} {strong weak : Img m n}
    {e : Img m n} {tr : List (ℤ × ℤ)}
    (h : edge_hysteresisT strong weak = Except.ok (e, tr)) :
    ∃ e1 : Img m n,
      hystLoop (hystFuel m n) (fun i j => strong i j + weak i j) []
        (((cellsList m n).filter fun c => decide (strong c.1 c.2 ≠ 0)).map rawOf) =
        Except.ok (e1, tr) ∧
      e = fun i j => if e1 i j = 50 then 0 else e1 i j := by
  simp only [edge_hysteresisT] at h
  rcases hl : hystLoop (hystFuel m n) (fun i j => strong i j + weak i j) []
      (((cellsList m n).filter fun c => decide (strong c.1 c.2 ≠ 0)).map rawOf) with f | ⟨e1, tr1⟩
  · rw [hl] at h; cases h
  · rw [hl] at h
    injection h with h'
    injection h' with h1 h2
    exact ⟨e1, by rw [← h2]; exact hl, h1.symm⟩

/-! ## Connectivity and in-bounds invariants of the hysteresis loop -/

/-- A pixel not on the first/last row or column. -/
def InteriorCell {m n : ℕ} (c : Cell m n) : Prop :=
  1 ≤ (c.1 : ℕ) ∧ (c.1 : ℕ) < m ∧ 1 ≤ (c.2 : ℕ) ∧ (c.2 : ℕ) < n

instance {m n : ℕ} (c : Cell m n) : Decidable (InteriorCell c) :=
  inferInstanceAs (Decidable (1 ≤ (c.1 : ℕ) ∧ (c.1 : ℕ) < m ∧ 1 ≤ (c.2 : ℕ) ∧ (c.2 : ℕ) < n))

/-- A raw integer index pair denoting a genuine (non-negative, in-range)
position of an `(m+1) × (n+1)` array. -/
def InBox (m n : ℕ) (p : ℤ × ℤ) : Prop :=
  0 ≤ p.1 ∧ p.1 < m + 1 ∧ 0 ≤ p.2 ∧ p.2 < n + 1

instance {m n : ℕ} (p : ℤ × ℤ) : Decidable (InBox m n p) :=
  inferInstanceAs (Decidable (0 ≤ p.1 ∧ p.1 < m + 1 ∧ 0 ≤ p.2 ∧ p.2 < n + 1))

/-- Adjacency in the 8-neighbourhood sense (the offsets enumerated by
`get_neighbours`). -/
def Adj {m n : ℕ} (p q : Cell m n) : Prop :=
  ∃ o ∈ neighbourOffsets, ((q.1 : ℤ) = (p.1 : ℤ) + o.1 ∧ (q.2 : ℤ) = (p.2 : ℤ) + o.2)

instance {m n : ℕ} (p q : Cell m n) : Decidable (Adj p q) :=
  inferInstanceAs (Decidable (∃ o ∈ neighbourOffsets, _ ∧ _))

/-- The pixels reachable from an original strong pixel through a chain of
originally-weak pixels, consecutive links being 8-adjacent. -/
inductive WeakReach {m n : ℕ} (s w : Img m n) : Cell m n → Prop
  | base (p q : Cell m n) : s p.1 p.2 = 255 → Adj p q → w q.1 q.2 = 50 → WeakReach s w q
  | step (p q : Cell m n) : WeakReach s w p → Adj p q → w q.1 q.2 = 50 → WeakReach s w q

theorem weakReach_weak {m n : ℕ} {s w : Img m n} {q : Cell m n}
    (h : WeakReach s w q) : w q.1 q.2 = 50 := by
  cases h with
  | base p q _ _ hw => exact hw
  | step p q _ _ hw => exact hw

/-- Invariant of the queue loop, for label maps whose nonzero pixels are all
interior: every `255` pixel of the working array is an original strong pixel
or weak-reachable, every `50` pixel is an original weak pixel, and every
queued raw coordinate is an interior pixel currently holding `255`. -/
structure HystInv {m n : ℕ} (s w : Img m n) (e : Img m n) (q : List (ℤ × ℤ)) : Prop where
  reach : ∀ c : Cell m n, e c.1 c.2 = 255 → s c.1 c.2 = 255 ∨ WeakReach s w c
  weakOnly : ∀ c : Cell m n, e c.1 c.2 = 50 → w c.1 c.2 = 50
  queue : ∀ p ∈ q, ∃ c : Cell m n, p = rawOf c ∧ InteriorCell c ∧ e c.1 c.2 = 255

theorem offsets_bound {o : ℤ × ℤ} (ho : o ∈ neighbourOffsets) :
    -1 ≤ o.1 ∧ o.1 ≤ 1 ∧ -1 ≤ o.2 ∧ o.2 ≤ 1 := by
  have h : o ∈ ([(-1, -1), (-1, 0), (-1, 1), (0, -1), (0, 1), (1, -1), (1, 0),
      (1, 1)] : List (ℤ × ℤ)) := ho
  fin_cases h <;> norm_num

theorem normCell_of_inBox {m n : ℕ} {p : ℤ × ℤ} (h : InBox m n p) :
    ∃ c : Cell m n, normCell m n p = some c ∧ rawOf c = p := by
  obtain ⟨h1, h2, h3, h4⟩ := h
  refine ⟨(⟨p.1.toNat, by omega⟩, ⟨p.2.toNat, by omega⟩), ?_, ?_⟩
  · unfold normCell
    rw [normIdx_of_inbounds _ _ h1 (by exact_mod_cast h2),
      normIdx_of_inbounds _ _ h3 (by exact_mod_cast h4)]
  · unfold rawOf
    have e1 : (p.1.toNat : ℤ) = p.1 := Int.toNat_of_nonneg h1
    have e2 : (p.2.toNat : ℤ) = p.2 := Int.toNat_of_nonneg h3
    exact Prod.ext e1 e2

theorem processNeighbours_inv {m n : ℕ} {s w : Img m n}
    (hwI : ∀ c : Cell m n, w c.1 c.2 ≠ 0 → InteriorCell c)
    {c0 : Cell m n} (hc0 : InteriorCell c0)
    (hreach0 : s c0.1 c0.2 = 255 ∨ WeakReach s w c0)
    {e : Img m n} {tr q l : List (ℤ × ℤ)}
    (hInv : HystInv s w e q)
    (hl : ∀ p ∈ l, ∃ o ∈ neighbourOffsets,
      p = ((c0.1 : ℤ) + o.1, (c0.2 : ℤ) + o.2))
    {e' : Img m n} {tr' q' : List (ℤ × ℤ)}
    (hrun : processNeighbours e tr q l = Except.ok (e', tr', q')) :
    HystInv s w e' q' ∧ (∀ p ∈ tr', p ∈ tr ∨ InBox m n p) := by
  induction l generalizing e tr q with
  | nil =>
    simp only [processNeighbours, Except.ok.injEq, Prod.mk.injEq] at hrun
    obtain ⟨he, ht, hq⟩ := hrun
    subst he; subst ht; subst hq
    exact ⟨hInv, fun p hp => Or.inl hp⟩
  | cons p rest ih =>
    obtain ⟨o, ho, hpo⟩ := hl p (List.mem_cons_self p rest)
    have hbox : InBox m n p := by
      obtain ⟨h1, h2, h3, h4⟩ := hc0
      obtain ⟨b1, b2, b3, b4⟩ := offsets_bound ho
      subst hpo
      refine ⟨by omega, by omega, by omega, by omega⟩
    obtain ⟨cp, hcp, hraw⟩ := normCell_of_inBox hbox
    simp only [processNeighbours] at hrun
    rw [hcp] at hrun
    replace hrun : (if e cp.1 cp.2 = 50 then
        processNeighbours (setCell e cp 255) (tr ++ [p]) (q ++ [p]) rest
      else processNeighbours e (tr ++ [p]) q rest) = Except.ok (e', tr', q') := hrun
    have hrest : ∀ p' ∈ rest, ∃ o ∈ neighbourOffsets,
        p' = ((c0.1 : ℤ) + o.1, (c0.2 : ℤ) + o.2) :=
      fun p' hp' => hl p' (List.mem_cons_of_mem p hp')
    have hAdj : Adj c0 cp := by
      refine ⟨o, ho, ?_, ?_⟩
      · have := congrArg Prod.fst hraw
        simp only [rawOf] at this
        rw [this, hpo]
      · have := congrArg Prod.snd hraw
        simp only [rawOf] at this
        rw [this, hpo]
    by_cases h50 : e cp.1 cp.2 = 50
    · rw [if_pos h50] at hrun
      have hwcp : w cp.1 cp.2 = 50 := hInv.weakOnly cp h50
      have hIcp : InteriorCell cp := hwI cp (by rw [hwcp]; norm_num)
      have hWR : WeakReach s w cp := by
        rcases hreach0 with hs0 | hr0
        · exact WeakReach.base c0 cp hs0 hAdj hwcp
        · exact WeakReach.step c0 cp hr0 hAdj hwcp
      have hInv1 : HystInv s w (setCell e cp 255) (q ++ [p]) := by
        refine ⟨?_, ?_, ?_⟩
        · intro c' h255
          by_cases hcc : c'.1 = cp.1 ∧ c'.2 = cp.2
          · have : c' = cp := Prod.ext hcc.1 hcc.2
            subst this
            exact Or.inr hWR
          · rw [setCell_other e cp 255 hcc] at h255
            exact hInv.reach c' h255
        · intro c' h50'
          by_cases hcc : c'.1 = cp.1 ∧ c'.2 = cp.2
          · rw [setCell, if_pos hcc] at h50'
            exact absurd h50' (by norm_num)
          · rw [setCell_other e cp 255 hcc] at h50'
            exact hInv.weakOnly c' h50'
        · intro p' hp'
          rcases List.mem_append.1 hp' with hmem | hmem
          · obtain ⟨c'', hc1, hc2, hc3⟩ := hInv.queue p' hmem
            refine ⟨c'', hc1, hc2, ?_⟩
            by_cases hcc : c''.1 = cp.1 ∧ c''.2 = cp.2
            · rw [setCell, if_pos hcc]
            · rw [setCell_other e cp 255 hcc]
              exact hc3
          · have : p' = p := by simpa using hmem
            subst this
            exact ⟨cp, hraw.symm, hIcp, by rw [setCell_same]⟩
      obtain ⟨hInvF, htrF⟩ := ih hInv1 hrest hrun
      refine ⟨hInvF, fun p' hp' => ?_⟩
      rcases htrF p' hp' with hin | hin
      · rcases List.mem_append.1 hin with h' | h'
        · exact Or.inl h'
        · have : p' = p := by simpa using h'
          subst this
          exact Or.inr hbox
      · exact Or.inr hin
    · rw [if_neg h50] at hrun
      obtain ⟨hInvF, htrF⟩ := ih hInv hrest hrun
      refine ⟨hInvF, fun p' hp' => ?_⟩
      rcases htrF p' hp' with hin | hin
      · rcases List.mem_append.1 hin with h' | h'
        · exact Or.inl h'
        · have : p' = p := by simpa using h'
          subst this
          exact Or.inr hbox
      · exact Or.inr hin

theorem hystLoop_inv {m n : ℕ} {s w : Img m n}
    (hwI : ∀ c : Cell m n, w c.1 c.2 ≠ 0 → InteriorCell c)
    {fuel : ℕ} {e : Img m n} {tr q : List (ℤ × ℤ)}
    (hInv : HystInv s w e q) (htr : ∀ p ∈ tr, InBox m n p)
    {e' : Img m n} {tr' : List (ℤ × ℤ)}
    (hrun : hystLoop fuel e tr q = Except.ok (e', tr')) :
    (∀ c : Cell m n, e' c.1 c.2 = 255 → s c.1 c.2 = 255 ∨ WeakReach s w c) ∧
      (∀ p ∈ tr', InBox m n p) := by
  induction fuel generalizing e tr q with
  | zero =>
    cases q with
    | nil =>
      simp only [hystLoop, Except.ok.injEq, Prod.mk.injEq] at hrun
      obtain ⟨he, ht⟩ := hrun
      subst he; subst ht
      exact ⟨hInv.reach, htr⟩
    | cons p rest => simp only [hystLoop] at hrun; cases hrun
  | succ fuel ih =>
    cases q with
    | nil =>
      simp only [hystLoop, Except.ok.injEq, Prod.mk.injEq] at hrun
      obtain ⟨he, ht⟩ := hrun
      subst he; subst ht
      exact ⟨hInv.reach, htr⟩
    | cons p rest =>
      simp only [hystLoop] at hrun
      split at hrun
      · cases hrun
      · rename_i e1 t1 q1 hp
        obtain ⟨c0, hc0raw, hc0int, hc0e⟩ := hInv.queue p (List.mem_cons_self p rest)
        have hreach0 : s c0.1 c0.2 = 255 ∨ WeakReach s w c0 := hInv.reach c0 hc0e
        have hInvRest : HystInv s w e rest :=
          ⟨hInv.reach, hInv.weakOnly,
            fun p' hp' => hInv.queue p' (List.mem_cons_of_mem p hp')⟩
        have hl : ∀ p' ∈ get_neighbours p, ∃ o ∈ neighbourOffsets,
            p' = ((c0.1 : ℤ) + o.1, (c0.2 : ℤ) + o.2) := by
          intro p' hp'
          obtain ⟨o, ho, hpo⟩ := List.mem_map.1 hp'
          refine ⟨o, ho, ?_⟩
          rw [← hpo, hc0raw]
          rfl
        obtain ⟨hInv1, htr1⟩ := processNeighbours_inv hwI hc0int hreach0 hInvRest hl hp
        have htr1' : ∀ p' ∈ t1, InBox m n p' := by
          intro p' hp'
          rcases htr1 p' hp' with h' | h'
          · exact htr p' h'
          · exact h'
        exact ih hInv1 htr1' hrun

/-- The connectivity and superset conclusions for a successful hysteresis run
whose strong and weak pixels all lie in the interior. -/
theorem edge_hysteresis_interior {m n : ℕ} {s w : Img m n}
    (hs : ∀ i j, s i j = 0 ∨ s i j = 255)
    (hw : ∀ i j, w i j = 0 ∨ w i j = 50)
    (hsw : ∀ i j, s i j = 255 → w i j = 0)
    (hsI : ∀ c : Cell m n, s c.1 c.2 ≠ 0 → InteriorCell c)
    (hwI : ∀ c : Cell m n, w c.1 c.2 ≠ 0 → InteriorCell c) :
    okP (edge_hysteresis s w) fun e =>
      (∀ i j, s i j = 255 → e i j = 255) ∧
      (∀ i j, e i j = 255 → s i j = 255 ∨ WeakReach s w (i, j)) := by
  unfold edge_hysteresis
  rcases hT : edge_hysteresisT s w with f | ⟨e, tr⟩
  · exact trivial
  · obtain ⟨e1, hloop, hsweep⟩ := edge_hysteresisT_ok hT
    have hInv0 : HystInv s w (fun i j => s i j + w i j)
        (((cellsList m n).filter fun c => decide (s c.1 c.2 ≠ 0)).map rawOf) := by
      refine ⟨?_, ?_, ?_⟩
      · intro c h255
        rcases hs c.1 c.2 with h0 | h0 <;> rcases hw c.1 c.2 with h1 | h1 <;>
          rw [h0, h1] at h255 <;> norm_num at h255
        · exact Or.inl h0
      · intro c h50
        rcases hs c.1 c.2 with h0 | h0 <;> rcases hw c.1 c.2 with h1 | h1 <;>
          rw [h0, h1] at h50 <;> norm_num at h50
        · exact h1
      · intro p hp
        obtain ⟨c, hc, hcp⟩ := List.mem_map.1 hp
        have hcf := (List.mem_filter.1 hc).2
        have hcne : s c.1 c.2 ≠ 0 := of_decide_eq_true hcf
        have hs255 : s c.1 c.2 = 255 := by
          rcases hs c.1 c.2 with h0 | h0
          · exact absurd h0 hcne
          · exact h0
        refine ⟨c, hcp.symm, hsI c hcne, ?_⟩
        rw [hs255, hsw c.1 c.2 hs255]
        norm_num
    obtain ⟨hreach, -⟩ := hystLoop_inv hwI hInv0 (by intro p hp; cases hp) hloop
    have hEvol : ∀ i j, e1 i j = s i j + w i j ∨ (s i j + w i j = 50 ∧ e1 i j = 255) :=
      hystLoop_evol hloop
    constructor
    · intro i j h255
      have h0 : s i j + w i j = 255 := by
        rw [h255, hsw i j h255]
        norm_num
      have he1 : e1 i j = 255 := by
        rcases hEvol i j with h' | ⟨h5, h2⟩
        · rw [h', h0]
        · exact h2
      rw [hsweep]
      show (if e1 i j = 50 then 0 else e1 i j) = 255
      rw [he1]
      norm_num
    · intro i j h255
      rw [hsweep] at h255
      replace h255 : (if e1 i j = 50 then 0 else e1 i j) = 255 := h255
      by_cases h1 : e1 i j = 50
      · rw [if_pos h1] at h255
        exact absurd h255 (by norm_num)
      · rw [if_neg h1] at h255
        exact hreach (i, j) h255

/-- In-bounds access conclusion for a successful instrumented hysteresis run
whose strong and weak pixels all lie in the interior. -/
theorem edge_hysteresisT_interior_trace {m n : ℕ} {s w : Img m n}
    (hs : ∀ i j, s i j = 0 ∨ s i j = 255)
    (hw : ∀ i j, w i j = 0 ∨ w i j = 50)
    (hsw : ∀ i j, s i j = 255 → w i j = 0)
    (hsI : ∀ c : Cell m n, s c.1 c.2 ≠ 0 → InteriorCell c)
    (hwI : ∀ c : Cell m n, w c.1 c.2 ≠ 0 → InteriorCell c) :
    okP (edge_hysteresisT s w) fun r => ∀ p ∈ r.2, InBox m n p := by
  rcases hT : edge_hysteresisT s w with f | ⟨e, tr⟩
  · exact trivial
  · obtain ⟨e1, hloop, -⟩ := edge_hysteresisT_ok hT
    have hInv0 : HystInv s w (fun i j => s i j + w i j)
        (((cellsList m n).filter fun c => decide (s c.1 c.2 ≠ 0)).map rawOf) := by
      refine ⟨?_, ?_, ?_⟩
      · intro c h255
        rcases hs c.1 c.2 with h0 | h0 <;> rcases hw c.1 c.2 with h1 | h1 <;>
          rw [h0, h1] at h255 <;> norm_num at h255
        · exact Or.inl h0
      · intro c h50
        rcases hs c.1 c.2 with h0 | h0 <;> rcases hw c.1 c.2 with h1 | h1 <;>
          rw [h0, h1] at h50 <;> norm_num at h50
        · exact h1
      · intro p hp
        obtain ⟨c, hc, hcp⟩ := List.mem_map.1 hp
        have hcf := (List.mem_filter.1 hc).2
        have hcne : s c.1 c.2 ≠ 0 := of_decide_eq_true hcf
        have hs255 : s c.1 c.2 = 255 := by
          rcases hs c.1 c.2 with h0 | h0
          · exact absurd h0 hcne
          · exact h0
        refine ⟨c, hcp.symm, hsI c hcne, ?_⟩
        rw [hs255, hsw c.1 c.2 hs255]
        norm_num
    obtain ⟨-, htr⟩ := hystLoop_inv hwI hInv0 (by intro p hp; cases hp) hloop
    exact htr

/-- On any successful run (wraparound promotions included), the returned map
holds only `0` and `255` whenever the input label maps hold `{0, 255}` and
`{0, 50}` disjointly. -/
theorem edge_hysteresis_values {m n : ℕ} {s w : Img m n}
    (hs : ∀ i j, s i j = 0 ∨ s i j = 255)
    (hw : ∀ i j, w i j = 0 ∨ w i j = 50)
    (hsw : ∀ i j, s i j = 255 → w i j = 0) :
    okP (edge_hysteresis s w) fun e => ∀ i j, e i j = 0 ∨ e i j = 255 := by
  unfold edge_hysteresis
  rcases hT : edge_hysteresisT s w with f | ⟨e, tr⟩
  · exact trivial
  · obtain ⟨e1, hloop, hsweep⟩ := edge_hysteresisT_ok hT
    have hEvol : ∀ i j, e1 i j = s i j + w i j ∨ (s i j + w i j = 50 ∧ e1 i j = 255) :=
      hystLoop_evol hloop
    intro i j
    show e i j = 0 ∨ e i j = 255
    rw [hsweep]
    show (if e1 i j = 50 then 0 else e1 i j) = 0 ∨ (if e1 i j = 50 then 0 else e1 i j) = 255
    by_cases h1 : e1 i j = 50
    · rw [if_pos h1]
      exact Or.inl rfl
    · rw [if_neg h1]
      rcases hEvol i j with h' | ⟨-, h2⟩
      · rcases hs i j with h0 | h0 <;> rcases hw i j with hw0 | hw0
        · rw [h', h0, hw0]
          norm_num
        · rw [h0] at h'
          rw [hw0] at h'
          norm_num at h'
          exact absurd h' h1
        · rw [h', h0, hw0]
          norm_num
        · rw [hsw i j h0] at hw0
          norm_num at hw0
      · exact Or.inr h2

/-- A pixel that starts at `0` (neither strong nor weak) is still `0` in the
returned map of any successful run. -/
theorem edge_hysteresis_zero {m n : ℕ} {s w : Img m n}
    {i : Fin (m + 1)} {j : Fin (n + 1)}
    (hz : s i j = 0 ∧ w i j = 0) :
    okP (edge_hysteresis s w) fun e => e i j = 0 := by
  unfold edge_hysteresis
  rcases hT : edge_hysteresisT s w with f | ⟨e, tr⟩
  · exact trivial
  · obtain ⟨e1, hloop, hsweep⟩ := edge_hysteresisT_ok hT
    have hEvol : ∀ i j, e1 i j = s i j + w i j ∨ (s i j + w i j = 50 ∧ e1 i j = 255) :=
      hystLoop_evol hloop
    show e i j = 0
    rw [hsweep]
    show (if e1 i j = 50 then 0 else e1 i j) = 0
    have h0 : s i j + w i j = 0 := by rw [hz.1, hz.2]; norm_num
    rcases hEvol i j with h' | ⟨h5, -⟩
    · rw [h', h0]
      norm_num
    · rw [h0] at h5
      norm_num at h5

/-- Pixel values of the two classification maps of the double threshold. -/
theorem strongOf_weakOf_values {m n : ℕ} (pe : Img m n) (u : ℕ) :
    (∀ i j, strongOf pe u i j = 0 ∨ strongOf pe u i j = 255) ∧
    (∀ i j, weakOf pe u i j = 0 ∨ weakOf pe u i j = 50) ∧
    (∀ i j, strongOf pe u i j = 255 → weakOf pe u i j = 0) := by
  refine ⟨fun i j => ?_, fun i j => ?_, fun i j h => ?_⟩
  · unfold strongOf
    split
    · exact Or.inr rfl
    · exact Or.inl rfl
  · unfold weakOf
    split
    · exact Or.inl rfl
    · split
      · exact Or.inr rfl
      · exact Or.inl rfl
  · unfold strongOf at h
    unfold weakOf
    split at h
    · rw [if_pos (by assumption)]
    · exact absurd h (by norm_num)

/-- Every successful end-to-end run of the pipeline returns a map holding
only `0` and `255`, whatever the oracles, the image and `sigma` are. -/
theorem canny_values {m n : ℕ} (O : Oracles) (image : Img m n) (σ : ℚ) :
    okP (canny O image σ) fun e => ∀ i j, e i j = 0 ∨ e i j = 255 := by
  unfold canny
  refine okP_bindE fun g => okP_bindE fun ma => okP_bindE fun pe => ?_
  unfold double_threshold
  rw [bindE_assoc]
  refine okP_bindE fun u => ?_
  rw [bindE_ok]
  obtain ⟨h1, h2, h3⟩ := strongOf_weakOf_values pe u
  exact edge_hysteresis_values h1 h2 h3

/-- Border pixels of the classification maps are unlabelled as soon as the
potential-edge array vanishes there and the Otsu-derived lower threshold is
positive (`upper ≥ 3`). -/
theorem strongOf_weakOf_zero {m n : ℕ} (pe : Img m n) (u : ℕ) (hu : 3 ≤ u)
    {i : Fin (m + 1)} {j : Fin (n + 1)} (hpe : pe i j = 0) :
    strongOf pe u i j = 0 ∧ weakOf pe u i j = 0 := by
  have hafter : doubleThresholdPeAfter pe i j = 0 := by
    unfold doubleThresholdPeAfter
    rw [hpe, zero_mul]
  have hnotstrong : ¬ ((u : ℚ) < doubleThresholdPeAfter pe i j) := by
    rw [hafter]
    push_neg
    positivity
  have hlow : (1 : ℕ) ≤ u / 3 := by omega
  have hnotweak : ¬ (((u / 3 : ℕ) : ℚ) ≤ doubleThresholdPeAfter pe i j ∧
      doubleThresholdPeAfter pe i j ≤ (u : ℚ)) := by
    rw [hafter]
    rintro ⟨hc, -⟩
    have : ((1 : ℕ) : ℚ) ≤ ((u / 3 : ℕ) : ℚ) := by exact_mod_cast hlow
    linarith
  refine ⟨?_, ?_⟩
  · unfold strongOf
    rw [if_neg hnotstrong]
  · unfold weakOf
    rw [if_neg hnotstrong, if_neg hnotweak]

/-- The pipeline tail keeps borders at `0` whenever the potential-edge array
vanishes on the border and the Otsu threshold is at least `3`. -/
theorem cannyFromPotential_border_zero {m n : ℕ} (pe mag : Img m n) (u : ℕ)
    (ho : otsu_threshold pe = Except.ok u) (hu : 3 ≤ u)
    (hborder : ∀ (i : Fin (m + 1)) (j : Fin (n + 1)),
      ((i : ℕ) = 0 ∨ (i : ℕ) = m ∨ (j : ℕ) = 0 ∨ (j : ℕ) = n) → pe i j = 0) :
    okP (cannyFromPotential pe mag) fun e =>
      ∀ (i : Fin (m + 1)) (j : Fin (n + 1)),
        ((i : ℕ) = 0 ∨ (i : ℕ) = m ∨ (j : ℕ) = 0 ∨ (j : ℕ) = n) → e i j = 0 := by
  rw [cannyFromPotential_of_dt pe mag _ _ (double_threshold_of_otsu pe mag u ho)]
  refine okP_pi fun i j => ?_
  by_cases hb : (i : ℕ) = 0 ∨ (i : ℕ) = m ∨ (j : ℕ) = 0 ∨ (j : ℕ) = n
  · have hz := strongOf_weakOf_zero pe u hu (hborder i j hb)
    exact okP_mono (edge_hysteresis_zero hz) fun a ha _ => ha
  · exact okP_of_all fun a hb' => absurd hb' hb

/-! ## The angular bucket table of the specification (section 4.3) -/

/-- The neighbour-offset table of the specification, section 4.3, as a
function of the folded direction: each row maps a direction range to the two
`(row, column)` offsets whose magnitudes are compared.  This is the
specification-side description, to be proved equal to the `if`/`elif` chain
of the source. -/
def specBucket (θ : ℚ) : (ℤ × ℤ) × (ℤ × ℤ) :=
  if θ < 45 / 2 ∨ 315 / 2 ≤ θ then ((0, -1), (0, 1))
  else if θ < 135 / 2 then ((1, 1), (-1, -1))
  else if θ < 225 / 2 then ((-1, 0), (1, 0))
  else ((1, -1), (-1, 1))

theorem foldAngles_range {m n : ℕ} (angle : Img m n) (i : Fin (m + 1)) (j : Fin (n + 1))
    (hang : -180 < angle i j ∧ angle i j ≤ 180) :
    0 ≤ foldAngles angle i j ∧ foldAngles angle i j ≤ 180 := by
  unfold foldAngles
  by_cases hneg : angle i j < 0
  · rw [if_pos hneg]
    constructor <;> linarith [hang.1]
  · rw [if_neg hneg]
    push_neg at hneg
    exact ⟨hneg, hang.2⟩

/-- The selection step of the suppression loop agrees with the angular bucket
table of the specification: for an interior pixel whose direction lies in
`(-180, 180]` (the range of `arctan2` in degrees), the two compared
neighbours are the ones the table prescribes for the folded direction, and
the pixel keeps its magnitude exactly when the magnitude is `≥` both. -/
theorem nmsRaw_interior_spec {m n : ℕ} (mag angle : Img m n)
    (i : Fin (m + 1)) (j : Fin (n + 1))
    (hint : 1 ≤ (i : ℕ) ∧ (i : ℕ) < m ∧ 1 ≤ (j : ℕ) ∧ (j : ℕ) < n)
    (hang : -180 < angle i j ∧ angle i j ≤ 180) :
    nmsRaw mag angle i j =
      (if getI mag ((i : ℤ) + (specBucket (foldAngles angle i j)).1.1)
            ((j : ℤ) + (specBucket (foldAngles angle i j)).1.2) ≤ mag i j ∧
          getI mag ((i : ℤ) + (specBucket (foldAngles angle i j)).2.1)
            ((j : ℤ) + (specBucket (foldAngles angle i j)).2.2) ≤ mag i j
        then mag i j else 0) := by
  obtain ⟨h0, h180⟩ := foldAngles_range angle i j hang
  simp only [nmsRaw, specBucket, if_pos hint]
  generalize hθ : foldAngles angle i j = θ
  rw [hθ] at h0 h180
  by_cases c1 : θ < 45 / 2 ∨ 315 / 2 ≤ θ
  · have b1 : (0 ≤ θ ∧ θ < 45 / 2) ∨ (315 / 2 ≤ θ ∧ θ ≤ 180) := by
      rcases c1 with h | h
      · exact Or.inl ⟨h0, h⟩
      · exact Or.inr ⟨h, h180⟩
    rw [if_pos b1]
    simp only [if_pos c1]
    norm_num [add_comm, sub_eq_add_neg]
  · have b1f : ¬ ((0 ≤ θ ∧ θ < 45 / 2) ∨ (315 / 2 ≤ θ ∧ θ ≤ 180)) := by
      push_neg at c1 ⊢
      exact ⟨fun _ => c1.1, fun h => absurd h (not_le.2 c1.2)⟩
    push_neg at c1
    rw [if_neg b1f]
    simp only [if_neg (show ¬ (θ < 45 / 2 ∨ 315 / 2 ≤ θ) by push_neg; exact c1)]
    by_cases c2 : θ < 135 / 2
    · have b2 : 45 / 2 ≤ θ ∧ θ < 135 / 2 := ⟨c1.1, c2⟩
      rw [if_pos b2]
      simp only [if_pos c2]
      norm_num [add_comm, sub_eq_add_neg]
    · push_neg at c2
      have b2f : ¬ (45 / 2 ≤ θ ∧ θ < 135 / 2) := fun h => absurd h.2 (not_lt.2 c2)
      rw [if_neg b2f]
      simp only [if_neg (not_lt.2 c2)]
      by_cases c3 : θ < 225 / 2
      · have b3 : 135 / 2 ≤ θ ∧ θ < 225 / 2 := ⟨c2, c3⟩
        rw [if_pos b3]
        simp only [if_pos c3]
        norm_num [add_comm, sub_eq_add_neg]
      · push_neg at c3
        have b3f : ¬ (135 / 2 ≤ θ ∧ θ < 225 / 2) := fun h => absurd h.2 (not_lt.2 c3)
        have b4 : 225 / 2 ≤ θ ∧ θ < 315 / 2 := ⟨c3, c1.2⟩
        rw [if_neg b3f, if_pos b4]
        simp only [if_neg (not_lt.2 c3)]
        norm_num [add_comm, sub_eq_add_neg]

/-! ## Properties of the Gaussian kernel size -/

/-- For positive `sigma`, the kernel side is exactly the least odd integer at
least `ceil(2.54 sigma)`; it is at least `1`, and at least `3` exactly on the
condition `2.54 sigma > 1`. -/
theorem kernelShape_spec (σ : ℚ) (hσ : 0 < σ) :
    Odd (kernelShape σ) ∧
    ⌈(254 / 100 : ℚ) * σ⌉ ≤ kernelShape σ ∧
    (∀ k : ℤ, Odd k → ⌈(254 / 100 : ℚ) * σ⌉ ≤ k → kernelShape σ ≤ k) ∧
    1 ≤ kernelShape σ ∧
    ((1 : ℚ) < (254 / 100) * σ → 3 ≤ kernelShape σ) := by
  have hc1 : 1 ≤ ⌈(254 / 100 : ℚ) * σ⌉ := by
    have : (0 : ℚ) < (254 / 100) * σ := by positivity
    have := Int.ceil_pos.2 this
    omega
  have hge2 : (1 : ℚ) < (254 / 100) * σ → 2 ≤ ⌈(254 / 100 : ℚ) * σ⌉ := by
    intro h
    have : (1 : ℤ) < ⌈(254 / 100 : ℚ) * σ⌉ := Int.lt_ceil.2 (by exact_mod_cast h)
    omega
  unfold kernelShape
  by_cases hodd : ⌈(254 / 100 : ℚ) * σ⌉ % 2 = 1
  · rw [if_pos hodd]
    refine ⟨Int.odd_iff.2 hodd, le_refl _, fun k _ hk => hk, by omega, fun h => ?_⟩
    have := hge2 h
    omega
  · rw [if_neg hodd]
    have heven : ⌈(254 / 100 : ℚ) * σ⌉ % 2 = 0 := by omega
    refine ⟨Int.odd_iff.2 (by omega), by omega, fun k hk hck => ?_, by omega, fun h => ?_⟩
    · have hk1 := Int.odd_iff.1 hk
      omega
    · have := hge2 h
      omega

/-! ## Properties of the Otsu threshold -/

theorem otsuStep_threshold (size sum : ℚ) (hist : ℕ → ℚ) (st : OtsuState) (t : ℕ) :
    (otsuStep size sum hist st t).threshold = st.threshold ∨
      (otsuStep size sum hist st t).threshold = t := by
  simp only [otsuStep]
  by_cases h1 : st.q1 + hist t = 0
  · rw [if_pos h1]
    exact Or.inl rfl
  · rw [if_neg h1]
    split <;> split <;> first | exact Or.inl rfl | exact Or.inr rfl

theorem otsuFold_threshold_le (size sum : ℚ) (hist : ℕ → ℚ) :
    ∀ (l : List ℕ) (st : OtsuState), st.threshold ≤ 255 → (∀ t ∈ l, t ≤ 255) →
      (l.foldl (otsuStep size sum hist) st).threshold ≤ 255 := by
  intro l
  induction l with
  | nil => intro st h _; exact h
  | cons t rest ih =>
    intro st hst hl
    rw [List.foldl_cons]
    refine ih _ ?_ fun t' ht' => hl t' (List.mem_cons_of_mem t ht')
    rcases otsuStep_threshold size sum hist st t with h | h
    · rw [h]; exact hst
    · rw [h]; exact hl t (List.mem_cons_self t rest)

/-- The chosen threshold is always an integer in `[0, 255]`. -/
theorem otsuCore_le_255 {m n : ℕ} (qm : Cell m n → ℕ) : otsuCore qm ≤ 255 := by
  unfold otsuCore
  refine otsuFold_threshold_le _ _ _ _ _ (by norm_num) fun t ht => ?_
  have := List.mem_range.1 ht
  omega

/-- Scale invariance: multiplying the image by a positive constant leaves the
quantized image, hence the histogram and the chosen threshold, unchanged. -/
theorem otsu_threshold_smul {m n : ℕ} (a : Img m n) (c : ℚ)
    (hM : 0 < imageMax a) (hc : 0 < c) :
    otsu_threshold (fun i j => c * a i j) = otsu_threshold a := by
  have hMc : imageMax (fun i j => c * a i j) = c * imageMax a := imageMax_smul a c hc
  have hMne : imageMax a ≠ 0 := ne_of_gt hM
  have hMcne : imageMax (fun i j => c * a i j) ≠ 0 := by
    rw [hMc]
    positivity
  have hcne : c ≠ 0 := ne_of_gt hc
  have hq : (fun p : Cell m n =>
      toUint8 (c * a p.1 p.2 * (255 / imageMax fun i j => c * a i j))) =
      fun p : Cell m n => toUint8 (a p.1 p.2 * (255 / imageMax a)) := by
    funext p
    rw [hMc]
    have harg : c * a p.1 p.2 * (255 / (c * imageMax a)) =
        a p.1 p.2 * (255 / imageMax a) := by
      field_simp
      ring
    rw [harg]
  unfold otsu_threshold
  rw [if_neg hMcne, if_neg hMne]
  exact congrArg (fun qm : Cell m n → ℕ => Except.ok (otsuCore qm)) hq

/-! ## In-place mutation of stage arguments -/

/-- The direction array is left unchanged by the fold of source line 46
exactly when it has no negative entry. -/
theorem foldAngles_id_iff {m n : ℕ} (a : Img m n) :
    foldAngles a = a ↔ ∀ i j, 0 ≤ a i j := by
  constructor
  · intro h i j
    by_contra hneg
    push_neg at hneg
    have hc := congrFun (congrFun h i) j
    unfold foldAngles at hc
    rw [if_pos hneg] at hc
    linarith
  · intro h
    funext i j
    unfold foldAngles
    rw [if_neg (not_lt.2 (h i j))]

/-- The `potential_edges` array is left unchanged by the in-place rescale of
source line 114 exactly when its maximum is already `255`. -/
theorem doubleThresholdPeAfter_id_iff {m n : ℕ} (pe : Img m n)
    (hM : 0 < imageMax pe) :
    doubleThresholdPeAfter pe = pe ↔ imageMax pe = 255 := by
  have hMne : imageMax pe ≠ 0 := ne_of_gt hM
  constructor
  · intro h
    obtain ⟨i0, j0, hmax⟩ := imageMax_attained pe
    have hc := congrFun (congrFun h i0) j0
    unfold doubleThresholdPeAfter at hc
    rw [hmax] at hc
    have : imageMax pe * (255 / imageMax pe) = 255 := by
      rw [mul_comm]
      exact div_mul_cancel₀ 255 hMne
    rw [this] at hc
    exact hc.symm
  · intro h
    funext i j
    unfold doubleThresholdPeAfter
    rw [h]
    norm_num

/-! ## Behaviour of the smoother on degenerate and non-positive input -/

/-- An all-zero image reaches the normalisation of source line 23 with a zero
maximum: the output is NaN-flooded (`nanPoisoned`), not an exception. -/
theorem gaussian_smoothing_zero_image {m n : ℕ} (expF : ℚ → ℚ) (piF : ℚ)
    (σ : ℚ) (hσ : 0 < σ) :
    gaussian_smoothing expF piF (fun (_ : Fin (m + 1)) (_ : Fin (n + 1)) => (0 : ℚ)) σ =
      Except.error CannyFailure.nanPoisoned := by
  obtain ⟨-, -, -, h1, -⟩ := kernelShape_spec σ hσ
  unfold gaussian_smoothing
  rw [if_neg (by omega), if_neg (ne_of_gt hσ), convolve_zero]
  rw [if_pos imageMax_zero]

/-- The whole pipeline on an all-zero image: the smoother NaN-poisons the
array and no `DegenerateInputError` (which no code defines) is raised. -/
theorem canny_zero_image {m n : ℕ} (O : Oracles) (σ : ℚ) (hσ : 0 < σ) :
    canny O (fun (_ : Fin (m + 1)) (_ : Fin (n + 1)) => (0 : ℚ)) σ =
      Except.error CannyFailure.nanPoisoned := by
  unfold canny
  rw [gaussian_smoothing_zero_image O.expF O.piF σ hσ, bindE_error]

theorem kernelShape_zero : kernelShape 0 = 1 := by
  unfold kernelShape
  norm_num

/-- With `sigma = 0` the kernel loop divides the Python scalar
`-(i_k²+j_k²)` by `2 σ² = 0`, raising `ZeroDivisionError` inside the
smoother (no validation happened before). -/
theorem canny_sigma_zero {m n : ℕ} (O : Oracles) (image : Img m n) :
    canny O image 0 = Except.error CannyFailure.zeroDivisionError := by
  unfold canny gaussian_smoothing
  rw [kernelShape_zero]
  norm_num [bindE_error]

theorem kernelShape_le_neg (σ : ℚ) (h : σ ≤ -50 / 127) : kernelShape σ < 0 := by
  have hle : (254 / 100 : ℚ) * σ ≤ -1 := by nlinarith
  have hceil : ⌈(254 / 100 : ℚ) * σ⌉ ≤ -1 := by
    have := Int.ceil_le_ceil hle
    simpa using this
  unfold kernelShape
  by_cases hodd : ⌈(254 / 100 : ℚ) * σ⌉ % 2 = 1
  · rw [if_pos hodd]
    omega
  · rw [if_neg hodd]
    omega

/-- For `sigma ≤ -50/127` the kernel side is negative and
`np.zeros((k, k))` raises `ValueError`; again no validation happened at the
entry point. -/
theorem gaussian_smoothing_neg_sigma {m n : ℕ} (expF : ℚ → ℚ) (piF : ℚ)
    (image : Img m n) (σ : ℚ) (h : σ ≤ -50 / 127) :
    gaussian_smoothing expF piF image σ = Except.error CannyFailure.valueError := by
  unfold gaussian_smoothing
  rw [if_pos (kernelShape_le_neg σ h)]

theorem kernelShape_small_neg (σ : ℚ) (h1 : -50 / 127 < σ) (h2 : σ < 0) :
    kernelShape σ = 1 := by
  have hlt : (254 / 100 : ℚ) * σ < 0 := by nlinarith
  have hgt : (-1 : ℚ) < (254 / 100 : ℚ) * σ := by nlinarith
  have hle : ⌈(254 / 100 : ℚ) * σ⌉ ≤ 0 := Int.ceil_le.2 (by exact_mod_cast le_of_lt hlt)
  have hge : (-1 : ℤ) < ⌈(254 / 100 : ℚ) * σ⌉ := Int.lt_ceil.2 (by exact_mod_cast hgt)
  have hzero : ⌈(254 / 100 : ℚ) * σ⌉ = 0 := by omega
  unfold kernelShape
  rw [hzero]
  norm_num

/-- A slightly negative `sigma` (in `(-50/127, 0)`) is not rejected either:
the kernel degenerates to a single cell holding `exp(0)/(2 π σ²)` and the
smoother completes normally on any image with positive maximum. -/
theorem gaussian_smoothing_small_neg_ok {m n : ℕ} (expF : ℚ → ℚ) (piF : ℚ)
    (image : Img m n) (σ : ℚ) (h1 : -50 / 127 < σ) (h2 : σ < 0)
    (hexp : expF 0 = 1) (hpi : 0 < piF) (hM : 0 < imageMax image) :
    ∃ b, gaussian_smoothing expF piF image σ = Except.ok b := by
  have hks : kernelShape σ = 1 := kernelShape_small_neg σ h1 h2
  have hσσ : 0 < σ * σ := mul_pos_of_neg_of_neg h2 h2
  have hk00 : gaussKernel expF piF σ 1 0 0 = 1 / (2 * piF * σ * σ) := by
    unfold gaussKernel
    norm_num [hexp]
  have hkpos : 0 < gaussKernel expF piF σ 1 0 0 := by
    rw [hk00]
    have hden : 0 < 2 * piF * σ * σ := by
      calc (0 : ℚ) < 2 * piF * (σ * σ) := by positivity
        _ = 2 * piF * σ * σ := by ring
    positivity
  unfold gaussian_smoothing
  rw [hks]
  rw [if_neg (by norm_num), if_neg (ne_of_lt h2)]
  have hconv : convolve image (gaussKernel expF piF σ (1 : ℤ).toNat) =
      fun i j => gaussKernel expF piF σ 1 0 0 * image i j :=
    convolve_singleton image (gaussKernel expF piF σ 1)
  rw [hconv]
  have hMc : imageMax (fun i j => gaussKernel expF piF σ 1 0 0 * image i j) =
      gaussKernel expF piF σ 1 0 0 * imageMax image :=
    imageMax_smul image _ hkpos
  rw [if_neg (by rw [hMc]; positivity)]
  exact ⟨_, rfl⟩

/-! ## In-bounds traces without a disjointness assumption -/

theorem processNeighbours_bounds {m n : ℕ} {w : Img m n}
    (hwI : ∀ c : Cell m n, w c.1 c.2 ≠ 0 → InteriorCell c)
    {c0 : Cell m n} (hc0 : InteriorCell c0)
    {e : Img m n} {tr q l : List (ℤ × ℤ)}
    (hW : ∀ c : Cell m n, e c.1 c.2 = 50 → w c.1 c.2 = 50)
    (hQ : ∀ p ∈ q, ∃ c : Cell m n, p = rawOf c ∧ InteriorCell c)
    (hl : ∀ p ∈ l, ∃ o ∈ neighbourOffsets,
      p = ((c0.1 : ℤ) + o.1, (c0.2 : ℤ) + o.2))
    {e' : Img m n} {tr' q' : List (ℤ × ℤ)}
    (hrun : processNeighbours e tr q l = Except.ok (e', tr', q')) :
    (∀ c : Cell m n, e' c.1 c.2 = 50 → w c.1 c.2 = 50) ∧
    (∀ p ∈ q', ∃ c : Cell m n, p = rawOf c ∧ InteriorCell c) ∧
    (∀ p ∈ tr', p ∈ tr ∨ InBox m n p) := by
  induction l generalizing e tr q with
  | nil =>
    simp only [processNeighbours, Except.ok.injEq, Prod.mk.injEq] at hrun
    obtain ⟨he, ht, hq⟩ := hrun
    subst he; subst ht; subst hq
    exact ⟨hW, hQ, fun p hp => Or.inl hp⟩
  | cons p rest ih =>
    obtain ⟨o, ho, hpo⟩ := hl p (List.mem_cons_self p rest)
    have hbox : InBox m n p := by
      obtain ⟨h1, h2, h3, h4⟩ := hc0
      obtain ⟨b1, b2, b3, b4⟩ := offsets_bound ho
      subst hpo
      refine ⟨by omega, by omega, by omega, by omega⟩
    obtain ⟨cp, hcp, hraw⟩ := normCell_of_inBox hbox
    simp only [processNeighbours] at hrun
    rw [hcp] at hrun
    replace hrun : (if e cp.1 cp.2 = 50 then
        processNeighbours (setCell e cp 255) (tr ++ [p]) (q ++ [p]) rest
      else processNeighbours e (tr ++ [p]) q rest) = Except.ok (e', tr', q') := hrun
    have hrest : ∀ p' ∈ rest, ∃ o ∈ neighbourOffsets,
        p' = ((c0.1 : ℤ) + o.1, (c0.2 : ℤ) + o.2) :=
      fun p' hp' => hl p' (List.mem_cons_of_mem p hp')
    have htrconv : (∀ p' ∈ tr', p' ∈ tr ++ [p] ∨ InBox m n p') →
        ∀ p' ∈ tr', p' ∈ tr ∨ InBox m n p' := by
      intro hc p' hp'
      rcases hc p' hp' with hin | hin
      · rcases List.mem_append.1 hin with h' | h'
        · exact Or.inl h'
        · have : p' = p := by simpa using h'
          subst this
          exact Or.inr hbox
      · exact Or.inr hin
    by_cases h50 : e cp.1 cp.2 = 50
    · rw [if_pos h50] at hrun
      have hIcp : InteriorCell cp := hwI cp (by rw [hW cp h50]; norm_num)
      have hW1 : ∀ c : Cell m n, setCell e cp 255 c.1 c.2 = 50 → w c.1 c.2 = 50 := by
        intro c' h50'
        by_cases hcc : c'.1 = cp.1 ∧ c'.2 = cp.2
        · rw [setCell, if_pos hcc] at h50'
          exact absurd h50' (by norm_num)
        · rw [setCell_other e cp 255 hcc] at h50'
          exact hW c' h50'
      have hQ1 : ∀ p' ∈ q ++ [p], ∃ c : Cell m n, p' = rawOf c ∧ InteriorCell c := by
        intro p' hp'
        rcases List.mem_append.1 hp' with hmem | hmem
        · exact hQ p' hmem
        · have : p' = p := by simpa using hmem
          subst this
          exact ⟨cp, hraw.symm, hIcp⟩
      obtain ⟨hWF, hQF, htrF⟩ := ih hW1 hQ1 hrest hrun
      exact ⟨hWF, hQF, htrconv htrF⟩
    · rw [if_neg h50] at hrun
      obtain ⟨hWF, hQF, htrF⟩ := ih hW hQ hrest hrun
      exact ⟨hWF, hQF, htrconv htrF⟩

theorem hystLoop_bounds {m n : ℕ} {w : Img m n}
    (hwI : ∀ c : Cell m n, w c.1 c.2 ≠ 0 → InteriorCell c)
    {fuel : ℕ} {e : Img m n} {tr q : List (ℤ × ℤ)}
    (hW : ∀ c : Cell m n, e c.1 c.2 = 50 → w c.1 c.2 = 50)
    (hQ : ∀ p ∈ q, ∃ c : Cell m n, p = rawOf c ∧ InteriorCell c)
    (htr : ∀ p ∈ tr, InBox m n p)
    {e' : Img m n} {tr' : List (ℤ × ℤ)}
    (hrun : hystLoop fuel e tr q = Except.ok (e', tr')) :
    ∀ p ∈ tr', InBox m n p := by
  induction fuel generalizing e tr q with
  | zero =>
    cases q with
    | nil =>
      simp only [hystLoop, Except.ok.injEq, Prod.mk.injEq] at hrun
      obtain ⟨-, ht⟩ := hrun
      subst ht
      exact htr
    | cons p rest => simp only [hystLoop] at hrun; cases hrun
  | succ fuel ih =>
    cases q with
    | nil =>
      simp only [hystLoop, Except.ok.injEq, Prod.mk.injEq] at hrun
      obtain ⟨-, ht⟩ := hrun
      subst ht
      exact htr
    | cons p rest =>
      simp only [hystLoop] at hrun
      split at hrun
      · cases hrun
      · rename_i e1 t1 q1 hp
        obtain ⟨c0, hc0raw, hc0int⟩ := hQ p (List.mem_cons_self p rest)
        have hl : ∀ p' ∈ get_neighbours p, ∃ o ∈ neighbourOffsets,
            p' = ((c0.1 : ℤ) + o.1, (c0.2 : ℤ) + o.2) := by
          intro p' hp'
          obtain ⟨o, ho, hpo⟩ := List.mem_map.1 hp'
          refine ⟨o, ho, ?_⟩
          rw [← hpo, hc0raw]
          rfl
        obtain ⟨hW1, hQ1, htr1⟩ := processNeighbours_bounds hwI hc0int hW
          (fun p' hp' => hQ p' (List.mem_cons_of_mem p hp')) hl hp
        have htr1' : ∀ p' ∈ t1, InBox m n p' := by
          intro p' hp'
          rcases htr1 p' hp' with h' | h'
          · exact htr p' h'
          · exact h'
        exact ih hW1 hQ1 htr1' hrun

/-- In-bounds access conclusion without assuming strong/weak disjointness:
whenever all nonzero strong and weak pixels are interior, every recorded
access of a successful instrumented run is a genuine in-range index pair. -/
theorem edge_hysteresisT_bounds {m n : ℕ} {s w : Img m n}
    (hs : ∀ i j, s i j = 0 ∨ s i j = 255)
    (hw : ∀ i j, w i j = 0 ∨ w i j = 50)
    (hsI : ∀ c : Cell m n, s c.1 c.2 ≠ 0 → InteriorCell c)
    (hwI : ∀ c : Cell m n, w c.1 c.2 ≠ 0 → InteriorCell c) :
    okP (edge_hysteresisT s w) fun r => ∀ p ∈ r.2, InBox m n p := by
  rcases hT : edge_hysteresisT s w with f | ⟨e, tr⟩
  · exact trivial
  · obtain ⟨e1, hloop, -⟩ := edge_hysteresisT_ok hT
    have hW : ∀ c : Cell m n, s c.1 c.2 + w c.1 c.2 = 50 → w c.1 c.2 = 50 := by
      intro c h50
      rcases hs c.1 c.2 with h0 | h0 <;> rcases hw c.1 c.2 with h1 | h1 <;>
        rw [h0, h1] at h50 <;> norm_num at h50
      · exact h1
    have hQ : ∀ p ∈ ((cellsList m n).filter fun c => decide (s c.1 c.2 ≠ 0)).map rawOf,
        ∃ c : Cell m n, p = rawOf c ∧ InteriorCell c := by
      intro p hp
      obtain ⟨c, hc, hcp⟩ := List.mem_map.1 hp
      have hcne : s c.1 c.2 ≠ 0 := of_decide_eq_true (List.mem_filter.1 hc).2
      exact ⟨c, hcp.symm, hsI c hcne⟩
    exact hystLoop_bounds hwI hW hQ (by intro p hp; cases hp) hloop

/-! ## Concrete inputs

The remaining proofs evaluate the embedded pipeline on explicit arrays.  The
rational operations of Batteries are `@[irreducible]`, which blocks their
definitional evaluation; they are restored to the default reducibility for
the evaluations below. -/

attribute [local semireducible] Rat.add Rat.mul Rat.sub Rat.inv Rat.ofScientific

instance instDecEqExceptF {ε α : Type} [DecidableEq ε] [DecidableEq α] :
    DecidableEq (Except ε α)
  | .error x, .error y =>
    if h : x = y then .isTrue (by rw [h])
    else .isFalse (by intro hh; injection hh; exact h (by assumption))
  | .error _, .ok _ => .isFalse (by intro hh; injection hh)
  | .ok _, .error _ => .isFalse (by intro hh; injection hh)
  | .ok x, .ok y =>
    if h : x = y then .isTrue (by rw [h])
    else .isFalse (by intro hh; injection hh; exact h (by assumption))

/-- Default concrete oracle values for closed runs: a constant stand-in for
`exp`, a rational stand-in for `pi`, the identity for `sqrt` and the zero
function for `arctan2`.  The structural statements proved above hold for all
oracles, so any concrete instance may be used to exhibit runs. -/
def oracles0 : Oracles := ⟨fun _ => 1, 3, fun q => q, fun _ _ => 0⟩

/-- A 5×5 potential-edge array with a single interior spike, shaped exactly
like a non-maximum-suppression output: zero border, non-negative entries,
maximum `1`. -/
def pe5 : Img 4 4 := fun i j => if i = 1 ∧ j = 1 then 1 else 0

/-- A 5×5 potential-edge array with zero border and two interior levels
(`1/5` and `1`), whose Otsu threshold is `51`. -/
def peW : Img 4 4 := fun i j =>
  if 1 ≤ (i : ℕ) ∧ (i : ℕ) ≤ 3 ∧ 1 ≤ (j : ℕ) ∧ (j : ℕ) ≤ 3 then
    (if (i : ℕ) = 2 ∧ (j : ℕ) = 2 then 1 / 5
     else if (i : ℕ) + (j : ℕ) ≤ 3 then 1 / 5 else 1)
  else 0

/-- A 4×4 strong map with a single interior strong pixel at `(1,1)`. -/
def sWit : Img 3 3 := fun i j => if i = 1 ∧ j = 1 then 255 else 0

/-- A 4×4 weak map with a single interior weak pixel at `(2,2)`. -/
def wWit : Img 3 3 := fun i j => if i = 2 ∧ j = 2 then 50 else 0

/-- A 3×3 strong map with a strong pixel at the corner `(0,0)`. -/
def sCor : Img 2 2 := fun i j => if i = 0 ∧ j = 0 then 255 else 0

/-- A 3×3 weak map with a weak pixel at the opposite corner `(2,2)`. -/
def wCor : Img 2 2 := fun i j => if i = 2 ∧ j = 2 then 50 else 0

/-- A 3×3 all-zero weak map. -/
def wNone : Img 2 2 := fun _ _ => 0

/-- The eight raw accesses of a run seeded only with the corner `(0,0)`. -/
def trCor : List (ℤ × ℤ) :=
  [(-1, -1), (-1, 0), (-1, 1), (0, -1), (0, 1), (1, -1), (1, 0), (1, 1)]

set_option maxRecDepth 40000 in
theorem otsu_pe5 : otsu_threshold pe5 = Except.ok 0 := by
  refine otsu_threshold_eval pe5 0 (by decide) ?_
  refine otsuCore_eval _ 255 ⟨0, 1560600, 0, 24⟩ ⟨0, 1560600, 0, 24⟩ ⟨0, 1560600, 0, 24⟩
    ⟨0, 1560600, 255, 25⟩ ?_ (by decide) (by decide) (by decide) (by decide)
  exact otsuSum_eval _ 0 0 0 255 (by decide) (by decide) (by decide) (by decide)

set_option maxRecDepth 40000 in
theorem otsu_peW : otsu_threshold peW = Except.ok 51 := by
  refine otsu_threshold_eval peW 51 (by decide) ?_
  refine otsuCore_eval _ 1479 ⟨51, 5992704, 204, 20⟩ ⟨51, 5992704, 204, 20⟩
    ⟨51, 5992704, 204, 20⟩ ⟨51, 5992704, 1479, 25⟩ ?_ (by decide) (by decide)
    (by decide) (by decide)
  exact otsuSum_eval _ 204 204 204 1479 (by decide) (by decide) (by decide) (by decide)

/-- A 1×1 direction array holding `-90`. -/
def angNeg : Img 0 0 := fun _ _ => -90

/-- A 1×1 potential-edge array holding `5` (maximum not `255`). -/
def peSmall : Img 0 0 := fun _ _ => 5

/-- A 3×3 magnitude array with pairwise distinct values. -/
def magW : Img 2 2 := fun i j => (i : ℚ) * 3 + (j : ℚ)

/-- A 3×3 direction array holding `-90` everywhere. -/
def angW : Img 2 2 := fun _ _ => -90

/-! ## The claims -/

/-- C1: for every image, every `sigma` and every oracle instantiation of the
transcendental functions, a completed run of `canny` returns a map in which
every pixel is `0` or `255`.  The output has the input's `H × W` shape by
construction: every stage of the embedding maps `Img m n` to `Img m n`. -/
theorem C1_canny_binary_output {m n : ℕ} (O : Oracles) (image : Img m n) (σ : ℚ) :
    okP (canny O image σ) fun e => ∀ i j, e i j = 0 ∨ e i j = 255 :=
  canny_values O image σ

/-- C2 counterexample: on the all-zero 3×3 image with `sigma = 1` the
pipeline returns the NaN-poisoned failure of the smoothing normalisation
(division by a zero maximum), not the specification's
`DegenerateInputError`, which no code path produces. -/
theorem C2_counterexample :
    canny oracles0 (fun (_ : Fin 3) (_ : Fin 3) => (0 : ℚ)) 1 =
      Except.error CannyFailure.nanPoisoned ∧
    CannyFailure.nanPoisoned ≠ CannyFailure.degenerateInputError :=
  ⟨canny_zero_image oracles0 1 (by norm_num), by decide⟩

/-- C2 amended: for every size, oracle choice and `sigma > 0`, the all-zero
image is not intercepted: the smoother reaches its normalisation with a zero
maximum and the NaN/Inf-flooded result propagates (modelled `nanPoisoned`);
no `DegenerateInputError` is raised, since nothing in the code defines or
raises one. -/
theorem C2_zero_image_not_degenerate_error {m n : ℕ} (O : Oracles) (σ : ℚ)
    (hσ : 0 < σ) :
    canny O (fun (_ : Fin (m + 1)) (_ : Fin (n + 1)) => (0 : ℚ)) σ =
      Except.error CannyFailure.nanPoisoned ∧
    canny O (fun (_ : Fin (m + 1)) (_ : Fin (n + 1)) => (0 : ℚ)) σ ≠
      Except.error CannyFailure.degenerateInputError := by
  have h := canny_zero_image (m := m) (n := n) O σ hσ
  refine ⟨h, ?_⟩
  rw [h]
  intro hc
  injection hc with hc2
  cases hc2

set_option maxRecDepth 40000 in
/-- C2 witness: the amended statement at a concrete size, oracle and sigma. -/
theorem C2_zero_image_not_degenerate_error_witness :
    (0 : ℚ) < 1 ∧
    (canny oracles0 (fun (_ : Fin 3) (_ : Fin 3) => (0 : ℚ)) 1 =
        Except.error CannyFailure.nanPoisoned ∧
      canny oracles0 (fun (_ : Fin 3) (_ : Fin 3) => (0 : ℚ)) 1 ≠
        Except.error CannyFailure.degenerateInputError) :=
  ⟨by norm_num, C2_zero_image_not_degenerate_error oracles0 1 (by norm_num)⟩

set_option maxRecDepth 100000 in
/-- C3 counterexample: a 5×5 potential-edge array shaped exactly like a
suppression output (zero border, non-negative, maximum `1`) on which the
tail of the pipeline (`double_threshold` then `edge_hysteresis`, source
lines 160-161) completes and returns `255` at the border pixel `(0,0)`: the
Otsu threshold degenerates to `0`, every zero pixel becomes weak, and the
flood fill promotes the whole border. -/
theorem C3_counterexample :
    (∀ (i j : Fin 5), ((i : ℕ) = 0 ∨ (i : ℕ) = 4 ∨ (j : ℕ) = 0 ∨ (j : ℕ) = 4) →
      pe5 i j = 0) ∧
    imageMax pe5 = 1 ∧ (∀ (i j : Fin 5), 0 ≤ pe5 i j) ∧
    (cannyFromPotential pe5 pe5).map (fun e => e 0 0) = Except.ok 255 := by
  refine ⟨by decide, by decide, by decide, ?_⟩
  rw [cannyFromPotential_of_dt pe5 pe5 _ _ (double_threshold_of_otsu pe5 pe5 0 otsu_pe5)]
  decide

/-- C3 amended: the final map is `0` on the whole border provided the
potential-edge array vanishes there (as every suppression output does) and
the Otsu threshold is at least `3`, so that the lower threshold
`upper // 3` is positive and border zeroes are not classified weak. -/
theorem C3_border_zero {m n : ℕ} (pe mag : Img m n) (u : ℕ)
    (ho : otsu_threshold pe = Except.ok u) (hu : 3 ≤ u)
    (hborder : ∀ (i : Fin (m + 1)) (j : Fin (n + 1)),
      ((i : ℕ) = 0 ∨ (i : ℕ) = m ∨ (j : ℕ) = 0 ∨ (j : ℕ) = n) → pe i j = 0) :
    okP (cannyFromPotential pe mag) fun e =>
      ∀ (i : Fin (m + 1)) (j : Fin (n + 1)),
        ((i : ℕ) = 0 ∨ (i : ℕ) = m ∨ (j : ℕ) = 0 ∨ (j : ℕ) = n) → e i j = 0 :=
  cannyFromPotential_border_zero pe mag u ho hu hborder

section

attribute [local irreducible] okP cannyFromPotential

set_option maxRecDepth 40000 in
/-- C3 witness: the amended statement on a concrete 5×5 array whose Otsu
threshold is `51`. -/
theorem C3_border_zero_witness :
    (otsu_threshold peW = Except.ok 51 ∧ (3 : ℕ) ≤ 51 ∧
      (∀ (i j : Fin (4 + 1)), ((i : ℕ) = 0 ∨ (i : ℕ) = 4 ∨ (j : ℕ) = 0 ∨ (j : ℕ) = 4) →
        peW i j = 0)) ∧
    okP (cannyFromPotential peW peW) (fun e =>
      ∀ (i j : Fin (4 + 1)), ((i : ℕ) = 0 ∨ (i : ℕ) = 4 ∨ (j : ℕ) = 0 ∨ (j : ℕ) = 4) →
        e i j = 0) :=
  ⟨⟨otsu_peW, by norm_num, by decide⟩,
    C3_border_zero peW peW 51 otsu_peW (by norm_num) (by decide)⟩

end

set_option maxRecDepth 40000 in
/-- C4 counterexample: valid disjoint label maps (strong at the corner
`(0,0)`, weak at the opposite corner `(2,2)` of a 3×3 grid) on which
hysteresis completes and promotes `(2,2)` to `255` through numpy's negative
index wraparound, although `(2,2)` is not strong and not reachable from any
strong pixel through an 8-connected chain of weak pixels. -/
theorem C4_counterexample :
    (∀ i j, sCor i j = 0 ∨ sCor i j = 255) ∧
    (∀ i j, wCor i j = 0 ∨ wCor i j = 50) ∧
    (∀ i j, sCor i j = 255 → wCor i j = 0) ∧
    (edge_hysteresis sCor wCor).map (fun e => e 2 2) = Except.ok 255 ∧
    sCor 2 2 ≠ 255 ∧ ¬ WeakReach sCor wCor (2, 2) := by
  refine ⟨by decide, by decide, by decide, by decide, by decide, ?_⟩
  intro h
  cases h with
  | base p q hs hadj hw =>
    have hp : p = ((0, 0) : Cell 2 2) :=
      (by decide : ∀ p : Cell 2 2, sCor p.1 p.2 = 255 → p = (0, 0)) p hs
    exact (by decide : ¬ Adj ((0, 0) : Cell 2 2) (2, 2)) (hp ▸ hadj)
  | step p q hp hadj hw =>
    have hp22 : p = ((2, 2) : Cell 2 2) :=
      (by decide : ∀ p : Cell 2 2, wCor p.1 p.2 = 50 → p = (2, 2)) p (weakReach_weak hp)
    exact (by decide : ¬ Adj ((2, 2) : Cell 2 2) (2, 2)) (hp22 ▸ hadj)

/-- C4 amended: for disjoint strong/weak label maps all of whose labelled
pixels are interior (first/last row and column unlabelled, as the pipeline's
suppression stage guarantees for its output), every completed hysteresis run
keeps every original strong pixel at `255`, and every `255` pixel of the
result is an original strong pixel or is weak-reachable from one through an
8-connected chain of originally-weak pixels.  Without the interior proviso
the wraparound counterexample applies. -/
theorem C4_superset_connectivity {m n : ℕ} (s w : Img m n)
    (hs : ∀ i j, s i j = 0 ∨ s i j = 255)
    (hw : ∀ i j, w i j = 0 ∨ w i j = 50)
    (hsw : ∀ i j, s i j = 255 → w i j = 0)
    (hsI : ∀ c : Cell m n, s c.1 c.2 ≠ 0 → InteriorCell c)
    (hwI : ∀ c : Cell m n, w c.1 c.2 ≠ 0 → InteriorCell c) :
    okP (edge_hysteresis s w) fun e =>
      (∀ i j, s i j = 255 → e i j = 255) ∧
      (∀ i j, e i j = 255 → s i j = 255 ∨ WeakReach s w (i, j)) :=
  edge_hysteresis_interior hs hw hsw hsI hwI

set_option maxRecDepth 40000 in
/-- C4 witness: the amended statement on concrete 4×4 maps with one interior
strong pixel and one adjacent interior weak pixel. -/
theorem C4_superset_connectivity_witness :
    ((∀ i j, sWit i j = 0 ∨ sWit i j = 255) ∧
      (∀ i j, wWit i j = 0 ∨ wWit i j = 50) ∧
      (∀ i j, sWit i j = 255 → wWit i j = 0) ∧
      (∀ c : Cell 3 3, sWit c.1 c.2 ≠ 0 → InteriorCell c) ∧
      (∀ c : Cell 3 3, wWit c.1 c.2 ≠ 0 → InteriorCell c)) ∧
    okP (edge_hysteresis sWit wWit) (fun e =>
      (∀ i j, sWit i j = 255 → e i j = 255) ∧
      (∀ i j, e i j = 255 → sWit i j = 255 ∨ WeakReach sWit wWit (i, j))) :=
  ⟨⟨by decide, by decide, by decide, by decide, by decide⟩,
    C4_superset_connectivity sWit wWit (by decide) (by decide) (by decide)
      (by decide) (by decide)⟩

/-- C5: for every interior pixel whose direction value lies in
`(-180, 180]` (the range of `arctan2` in degrees), the folded direction lies
in `[0, 180]`, the suppression loop selects the two neighbour magnitudes
prescribed by the specification's four-way bucket table for that folded
direction, and it keeps the pixel's magnitude exactly when the magnitude is
`≥` both selected neighbours (else writes `0`). -/
theorem C5_nms_bucket_table {m n : ℕ} (mag angle : Img m n)
    (i : Fin (m + 1)) (j : Fin (n + 1))
    (hint : 1 ≤ (i : ℕ) ∧ (i : ℕ) < m ∧ 1 ≤ (j : ℕ) ∧ (j : ℕ) < n)
    (hang : -180 < angle i j ∧ angle i j ≤ 180) :
    (0 ≤ foldAngles angle i j ∧ foldAngles angle i j ≤ 180) ∧
    nmsRaw mag angle i j =
      (if getI mag ((i : ℤ) + (specBucket (foldAngles angle i j)).1.1)
            ((j : ℤ) + (specBucket (foldAngles angle i j)).1.2) ≤ mag i j ∧
          getI mag ((i : ℤ) + (specBucket (foldAngles angle i j)).2.1)
            ((j : ℤ) + (specBucket (foldAngles angle i j)).2.2) ≤ mag i j
        then mag i j else 0) :=
  ⟨foldAngles_range angle i j hang, nmsRaw_interior_spec mag angle i j hint hang⟩

set_option maxRecDepth 40000 in
/-- C5 witness: the bucket statement at the centre of a concrete 3×3
magnitude/direction pair with direction `-90` (folded to `90`). -/
theorem C5_nms_bucket_table_witness :
    ((1 ≤ ((1 : Fin 3) : ℕ) ∧ ((1 : Fin 3) : ℕ) < 2 ∧
      1 ≤ ((1 : Fin 3) : ℕ) ∧ ((1 : Fin 3) : ℕ) < 2) ∧
      (-180 < angW 1 1 ∧ angW 1 1 ≤ 180)) ∧
    ((0 ≤ foldAngles angW 1 1 ∧ foldAngles angW 1 1 ≤ 180) ∧
    nmsRaw magW angW 1 1 =
      (if getI magW (((1 : Fin 3) : ℤ) + (specBucket (foldAngles angW 1 1)).1.1)
            (((1 : Fin 3) : ℤ) + (specBucket (foldAngles angW 1 1)).1.2) ≤ magW 1 1 ∧
          getI magW (((1 : Fin 3) : ℤ) + (specBucket (foldAngles angW 1 1)).2.1)
            (((1 : Fin 3) : ℤ) + (specBucket (foldAngles angW 1 1)).2.2) ≤ magW 1 1
        then magW 1 1 else 0)) :=
  ⟨⟨by decide, by decide⟩, C5_nms_bucket_table magW angW 1 1 (by decide) (by decide)⟩

set_option maxRecDepth 40000 in
/-- C6 counterexample: `non_maximum_suppression` does not leave its
direction argument unchanged (a negative entry is folded in place by
`+180`), and `double_threshold` does not leave its `potential_edges`
argument unchanged (it is rescaled in place to maximum `255`). -/
theorem C6_counterexample :
    foldAngles angNeg 0 0 ≠ angNeg 0 0 ∧
    doubleThresholdPeAfter peSmall 0 0 ≠ peSmall 0 0 := by
  decide

/-- C6 amended: the pipeline is not mutation-free.  `foldAngles` is the
final state of the direction array passed to `non_maximum_suppression`
(source line 46 mutates it in place): it equals the argument exactly when
the argument has no negative entry.  `doubleThresholdPeAfter` is the final
state of the `potential_edges` array passed to `double_threshold` (source
line 114 rescales it in place): for an array with positive maximum it
equals the argument exactly when the maximum is already `255`. -/
theorem C6_argument_mutation {m n : ℕ} (a pe : Img m n) (hM : 0 < imageMax pe) :
    (foldAngles a = a ↔ ∀ i j, 0 ≤ a i j) ∧
    (doubleThresholdPeAfter pe = pe ↔ imageMax pe = 255) :=
  ⟨foldAngles_id_iff a, doubleThresholdPeAfter_id_iff pe hM⟩

set_option maxRecDepth 40000 in
/-- C6 witness: the amended statement at concrete 1×1 arrays. -/
theorem C6_argument_mutation_witness :
    (0 : ℚ) < imageMax peSmall ∧
    ((foldAngles angNeg = angNeg ↔ ∀ i j, 0 ≤ angNeg i j) ∧
      (doubleThresholdPeAfter peSmall = peSmall ↔ imageMax peSmall = 255)) :=
  ⟨by decide, C6_argument_mutation angNeg peSmall (by decide)⟩

set_option maxRecDepth 40000 in
/-- C7 counterexample: `sigma = 0` is not rejected at the entry point with
an `InvalidArgument` failure before computation begins; instead the kernel
construction of the smoother performs the Python scalar division by
`2 sigma² = 0` and a `ZeroDivisionError` surfaces. -/
theorem C7_counterexample :
    canny oracles0 peSmall 0 = Except.error CannyFailure.zeroDivisionError ∧
    CannyFailure.zeroDivisionError ≠ CannyFailure.invalidArgument :=
  ⟨canny_sigma_zero oracles0 peSmall, by decide⟩

/-- C7 amended: `canny` performs no argument validation at all.  With
`sigma = 0` computation begins and dies with `ZeroDivisionError` inside the
kernel loop; with `sigma ≤ -50/127` it dies with `ValueError` from a
negative `np.zeros` dimension inside the smoother; with
`sigma ∈ (-50/127, 0)` the smoother even completes normally (a 1×1 kernel),
under the true facts `exp 0 = 1` and `pi > 0` about the oracles.  (Non-2-D
inputs and shape mismatches are outside this typed embedding; nothing in the
source checks them either.) -/
theorem C7_no_entry_validation {m n : ℕ} (O : Oracles) (image : Img m n) (σ : ℚ)
    (hexp : O.expF 0 = 1) (hpi : 0 < O.piF) (hM : 0 < imageMax image) :
    (σ = 0 → canny O image σ = Except.error CannyFailure.zeroDivisionError ∧
      canny O image σ ≠ Except.error CannyFailure.invalidArgument) ∧
    (σ ≤ -50 / 127 →
      gaussian_smoothing O.expF O.piF image σ = Except.error CannyFailure.valueError) ∧
    (-50 / 127 < σ → σ < 0 →
      ∃ b, gaussian_smoothing O.expF O.piF image σ = Except.ok b) := by
  refine ⟨?_, ?_, ?_⟩
  · intro h0
    subst h0
    have h := canny_sigma_zero O image
    refine ⟨h, ?_⟩
    rw [h]
    intro hc
    injection hc with hc2
    cases hc2
  · intro hneg
    exact gaussian_smoothing_neg_sigma O.expF O.piF image σ hneg
  · intro h1 h2
    exact gaussian_smoothing_small_neg_ok O.expF O.piF image σ h1 h2 hexp hpi hM

set_option maxRecDepth 40000 in
/-- C7 witness: the amended statement at a concrete oracle, image and
`sigma = -1/10` (the third branch applies and the smoother completes). -/
theorem C7_no_entry_validation_witness :
    (oracles0.expF 0 = 1 ∧ (0 : ℚ) < oracles0.piF ∧ (0 : ℚ) < imageMax peSmall) ∧
    (((-1 / 10 : ℚ) = 0 →
        canny oracles0 peSmall (-1 / 10) = Except.error CannyFailure.zeroDivisionError ∧
        canny oracles0 peSmall (-1 / 10) ≠ Except.error CannyFailure.invalidArgument) ∧
      ((-1 / 10 : ℚ) ≤ -50 / 127 →
        gaussian_smoothing oracles0.expF oracles0.piF peSmall (-1 / 10) =
          Except.error CannyFailure.valueError) ∧
      (-50 / 127 < (-1 / 10 : ℚ) → (-1 / 10 : ℚ) < 0 →
        ∃ b, gaussian_smoothing oracles0.expF oracles0.piF peSmall (-1 / 10) =
          Except.ok b)) :=
  ⟨⟨by decide, by decide, by decide⟩,
    C7_no_entry_validation oracles0 peSmall (-1 / 10) (by decide) (by decide) (by decide)⟩

/-- C8 counterexample: for `sigma = 1/10` the kernel side length is `1`,
not at least `3`: `ceil(2.54/10) = 1` is already odd. -/
theorem C8_counterexample :
    kernelShape (1 / 10) = 1 ∧ ¬ (3 ≤ kernelShape (1 / 10)) := by
  have hc : (⌈(127 : ℚ) / 500⌉ : ℤ) = 1 := by
    have h1 : (⌈(127 : ℚ) / 500⌉ : ℤ) ≤ 1 := Int.ceil_le.2 (by norm_num)
    have h2 : 0 < (⌈(127 : ℚ) / 500⌉ : ℤ) := Int.ceil_pos.2 (by norm_num)
    omega
  have h : kernelShape (1 / 10) = 1 := by
    unfold kernelShape
    norm_num
    rw [hc]
    norm_num
  exact ⟨h, by rw [h]; norm_num⟩

/-- C8 amended: for every `sigma > 0` the Gaussian kernel is square (its
type is `Fin s → Fin s → ℚ` with `s = kernelShape sigma` by construction in
`gaussian_smoothing`) and its side is exactly the smallest odd integer at
least `ceil(2.54 sigma)`; that side is always at least `1`, and it is at
least `3` exactly when `2.54 sigma > 1` — not for all positive `sigma`. -/
theorem C8_kernel_side {σ : ℚ} (hσ : 0 < σ) :
    Odd (kernelShape σ) ∧
    ⌈(254 / 100 : ℚ) * σ⌉ ≤ kernelShape σ ∧
    (∀ k : ℤ, Odd k → ⌈(254 / 100 : ℚ) * σ⌉ ≤ k → kernelShape σ ≤ k) ∧
    1 ≤ kernelShape σ ∧
    ((1 : ℚ) < (254 / 100) * σ → 3 ≤ kernelShape σ) :=
  kernelShape_spec σ hσ

/-- C8 witness: the amended statement at `sigma = 1`. -/
theorem C8_kernel_side_witness :
    (0 : ℚ) < 1 ∧
    (Odd (kernelShape 1) ∧
      ⌈(254 / 100 : ℚ) * 1⌉ ≤ kernelShape 1 ∧
      (∀ k : ℤ, Odd k → ⌈(254 / 100 : ℚ) * 1⌉ ≤ k → kernelShape 1 ≤ k) ∧
      1 ≤ kernelShape 1 ∧
      ((1 : ℚ) < (254 / 100) * 1 → 3 ≤ kernelShape 1)) :=
  ⟨by norm_num, C8_kernel_side (by norm_num)⟩

/-- C9: the Otsu threshold is invariant under multiplication of the image by
any positive constant (the quantized copy, histogram and search coincide),
and the returned threshold is a natural number at most `255` whenever the
stage succeeds. -/
theorem C9_otsu_scale_invariance {m n : ℕ} (a : Img m n) (c : ℚ)
    (hM : 0 < imageMax a) (hc : 0 < c) :
    otsu_threshold (fun i j => c * a i j) = otsu_threshold a ∧
    okP (otsu_threshold a) fun t => t ≤ 255 := by
  refine ⟨otsu_threshold_smul a c hM hc, ?_⟩
  unfold otsu_threshold
  rw [if_neg (ne_of_gt hM)]
  exact otsuCore_le_255 _

set_option maxRecDepth 40000 in
/-- C9 witness: scale invariance at a concrete 1×1 image and factor `2`. -/
theorem C9_otsu_scale_invariance_witness :
    ((0 : ℚ) < imageMax peSmall ∧ (0 : ℚ) < 2) ∧
    (otsu_threshold (fun i j => 2 * peSmall i j) = otsu_threshold peSmall ∧
      okP (otsu_threshold peSmall) fun t => t ≤ 255) :=
  ⟨⟨by decide, by norm_num⟩, C9_otsu_scale_invariance peSmall 2 (by decide) (by norm_num)⟩

set_option maxRecDepth 40000 in
/-- C10 counterexample: with valid label values but a strong pixel at the
corner `(0,0)` of a 3×3 grid, the completed run's access trace contains the
raw index pair `(-1,-1)`, a negative index that numpy wraps to the opposite
border rather than an index in `[0,H) × [0,W)`. -/
theorem C10_counterexample :
    (∀ i j, sCor i j = 0 ∨ sCor i j = 255) ∧
    (∀ i j, wNone i j = 0 ∨ wNone i j = 50) ∧
    (edge_hysteresisT sCor wNone).map Prod.snd = Except.ok trCor ∧
    ((-1, -1) : ℤ × ℤ) ∈ trCor ∧ ¬ (0 ≤ (-1 : ℤ)) := by
  refine ⟨by decide, by decide, by decide, by decide, by decide⟩

/-- C10 amended: if additionally every labelled (nonzero) strong or weak
pixel is interior, then every access `edges[neighbour]` of a completed run
uses a row index in `[0, H)` and a column index in `[0, W)` — no
out-of-bounds access and no negative-index wraparound.  Without the interior
proviso the counterexample's wraparound access applies. -/
theorem C10_accesses_in_range {m n : ℕ} (s w : Img m n)
    (hs : ∀ i j, s i j = 0 ∨ s i j = 255)
    (hw : ∀ i j, w i j = 0 ∨ w i j = 50)
    (hsI : ∀ c : Cell m n, s c.1 c.2 ≠ 0 → InteriorCell c)
    (hwI : ∀ c : Cell m n, w c.1 c.2 ≠ 0 → InteriorCell c) :
    okP (edge_hysteresisT s w) fun r =>
      ∀ p ∈ r.2, 0 ≤ p.1 ∧ p.1 < (m + 1 : ℤ) ∧ 0 ≤ p.2 ∧ p.2 < (n + 1 : ℤ) := by
  have h := edge_hysteresisT_bounds hs hw hsI hwI
  refine okP_mono h fun r hr p hp => ?_
  obtain ⟨h1, h2, h3, h4⟩ := hr p hp
  exact ⟨h1, by exact_mod_cast h2, h3, by exact_mod_cast h4⟩

set_option maxRecDepth 40000 in
/-- C10 witness: the amended statement on the concrete interior-labelled
maps. -/
theorem C10_accesses_in_range_witness :
    ((∀ i j, sWit i j = 0 ∨ sWit i j = 255) ∧
      (∀ i j, wWit i j = 0 ∨ wWit i j = 50) ∧
      (∀ c : Cell 3 3, sWit c.1 c.2 ≠ 0 → InteriorCell c) ∧
      (∀ c : Cell 3 3, wWit c.1 c.2 ≠ 0 → InteriorCell c)) ∧
    okP (edge_hysteresisT sWit wWit) (fun r =>
      ∀ p ∈ r.2, 0 ≤ p.1 ∧ p.1 < (4 : ℤ) ∧ 0 ≤ p.2 ∧ p.2 < (4 : ℤ)) :=
  ⟨⟨by decide, by decide, by decide, by decide⟩,
    C10_accesses_in_range sWit wWit (by decide) (by decide) (by decide) (by decide)⟩

end CannyModel
